import Mathlib

/-!
Verification of the JurisNote case-note application (src/app.py).

The development shallowly embeds the pieces of the program that the
specification's testable properties talk about:

* the response normalizer of `get_ai_analysis` (fence stripping via Python
  `str.replace`, `str.strip`, and `json.loads`),
* the review/edit form initialisation (unguarded vs `.get`-guarded key access,
  `datetime.strptime(..., "%Y-%m-%d")` with its bare `except` fallback),
* the record assembler (the 11-column `row` list),
* the browse view's category filter and multi-column search
  (pandas `Series.str.contains`, whose default is `re.search` semantics),
* the session-state transitions of the analyze / submit / cancel handlers.

Python strings are modelled as `List Char`.  Python `json.loads` is modelled
by an executable recursive-descent parser that follows CPython's `json`
package: `", \t, \n, \r"` whitespace, double-quoted strings with the
standard escapes and `\uXXXX` (surrogate pairs combined; strings containing
*lone* surrogates are not representable in the model and are rejected),
`-?(0|[1-9]\d*)(\.\d+)?([eE][+-]?\d+)?` numbers (integers become `Json.int`;
numbers with a fractional or exponent part are kept as their exact lexeme in
`Json.fnum` instead of being converted to IEEE-754 doubles), the literals
`null/true/false` and CPython's non-standard `NaN`, `Infinity`, `-Infinity`,
arrays, and objects whose duplicate keys collapse with last-value-wins
(`dict(pairs)` semantics).
-/

/-! ## Python strings -/

/-- Python strings are sequences of characters. -/
abbrev Str := List Char

/-- Shorthand to write a modelled Python string as a Lean string literal. -/
def S (s : String) : Str := s.toList

/-- The whitespace characters that Python's `json` module skips between
tokens (`json.decoder.WHITESPACE`). -/
def isJsonWs (c : Char) : Bool := c = ' ' || c = '\t' || c = '\n' || c = '\r'

/-- The characters of Python's `str.strip()` default strip set that can
occur here (ASCII whitespace). -/
def isPySpace (c : Char) : Bool :=
  c = ' ' || c = '\t' || c = '\n' || c = '\r' || c = '\x0b' || c = '\x0c'

/-- Decimal digit test, `0-9`. -/
def isDigitChar (c : Char) : Bool := '0' ≤ c && c ≤ '9'

/-- Numeric value of a decimal digit character. -/
def dVal (c : Char) : Nat := c.toNat - 48

/-- The decimal digit character for `n < 10`. -/
def digitChar (n : Nat) : Char := Char.ofNat (48 + n)

/-- Skip JSON whitespace at the front of the input. -/
def skipWs : Str → Str
  | [] => []
  | c :: rest => if isJsonWs c then skipWs rest else c :: rest

/-- Worker for Python `str.replace` with a nonempty pattern `p₀ :: ptail`:
scan left to right, replacing non-overlapping occurrences and never
re-scanning replaced output.  The fuel is set to the input length by
`pyReplace`, which always suffices because every step consumes at least one
character. -/
def replLoopF (p₀ : Char) (ptail new : Str) : Nat → Str → Str
  | 0, s => s
  | _ + 1, [] => []
  | fuel + 1, c :: rest =>
    if (p₀ :: ptail).isPrefixOf (c :: rest) then
      new ++ replLoopF p₀ ptail new fuel (rest.drop ptail.length)
    else
      c :: replLoopF p₀ ptail new fuel rest

/-- Python `str.replace(old, new)` (all occurrences).  For the empty
pattern Python inserts `new` at every character boundary. -/
def pyReplace (s old new : Str) : Str :=
  match old with
  | [] => new ++ s.foldr (fun c acc => c :: (new ++ acc)) []
  | p₀ :: ptail => replLoopF p₀ ptail new s.length s

/-- Python `str.strip()` (ASCII-whitespace fragment): drop leading and
trailing whitespace. -/
def pyStrip (s : Str) : Str :=
  ((s.dropWhile isPySpace).reverse.dropWhile isPySpace).reverse

/-! ## The JSON value model -/

mutual

/-- A Python value produced by `json.loads`.  `fnum` keeps the exact decimal
lexeme of a number with fractional/exponent part (CPython converts these to
IEEE-754 floats; the model keeps them exact). -/
inductive Json where
  | null
  | bool (b : Bool)
  | int (n : Int)
  | fnum (lex : Str)
  | nan
  | inf
  | ninf
  | str (s : Str)
  | arr (elems : JArr)
  | obj (members : JObj)
deriving DecidableEq

/-- A Python list of JSON values. -/
inductive JArr where
  | nil
  | cons (hd : Json) (tl : JArr)
deriving DecidableEq

/-- A Python dict with string keys, as an insertion-ordered association
sequence (entries are unique by construction in `mkObj`). -/
inductive JObj where
  | nil
  | cons (k : Str) (v : Json) (tl : JObj)
deriving DecidableEq

end

/-- Does the dict have an entry for `key`? -/
def JObj.hasKey : JObj → Str → Bool
  | .nil, _ => false
  | .cons k _ tl, key => k = key || tl.hasKey key

/-- Python dict lookup `d[key]` / `d.get(key)` as an option. -/
def JObj.lookup : JObj → Str → Option Json
  | .nil, _ => none
  | .cons k v tl, key => if k = key then some v else tl.lookup key

/-- `d[key] = v` on a dict: overwrite in place if present, else append. -/
def JObj.setKey : JObj → Str → Json → JObj
  | .nil, k, v => .cons k v .nil
  | .cons k' v' tl, k, v =>
    if k' = k then .cons k' v tl else .cons k' v' (tl.setKey k v)

/-- Fold the raw member sequence of an object literal into a dict, later
duplicate keys overriding earlier values (`dict(pairs)` semantics). -/
def mkObjAux : JObj → JObj → JObj
  | acc, .nil => acc
  | acc, .cons k v tl => mkObjAux (acc.setKey k v) tl

/-- `dict(pairs)` on the raw member sequence of a JSON object literal. -/
def mkObj (kvs : JObj) : JObj := mkObjAux .nil kvs

/-- Append of member sequences. -/
def JObj.append : JObj → JObj → JObj
  | .nil, b => b
  | .cons k v tl, b => .cons k v (tl.append b)

/-! ## Serialisation (a standard compact JSON rendering)

`Json.dumps` writes a value back as JSON text: strings escape `"` and `\`
and render control characters as `\u00XX`, everything else verbatim;
integers in decimal; `fnum` emits its stored lexeme.  The spec's round-trip
property quantifies over serialised objects, so this is the model's
canonical serialisation. -/

/-- Decimal digits of `n`, most significant first, via explicit fuel (the
fuel `n + 1` always suffices). -/
def natDigitsAux : Nat → Nat → Str
  | 0, _ => []
  | fuel + 1, n =>
    if n < 10 then [digitChar n]
    else natDigitsAux fuel (n / 10) ++ [digitChar (n % 10)]

/-- Decimal rendering of a natural number. -/
def natDumps (n : Nat) : Str := natDigitsAux (n + 1) n

/-- Decimal rendering of an integer. -/
def intDumps (n : Int) : Str :=
  if n < 0 then '-' :: natDumps (-n).toNat else natDumps n.toNat

/-- Lower-case hexadecimal digit character for `n < 16`. -/
def hexDigitChar (n : Nat) : Char :=
  if n < 10 then Char.ofNat (48 + n) else Char.ofNat (87 + n)

/-- Serialise the characters of a JSON string (without the surrounding
quotes): escape `"` and `\`, render control characters as `\u00XX`. -/
def strDumpsBody : Str → Str
  | [] => []
  | c :: rest =>
    (if c = '"' then ['\\', '"']
     else if c = '\\' then ['\\', '\\']
     else if c.toNat < 32 then
       ['\\', 'u', '0', '0', hexDigitChar (c.toNat / 16), hexDigitChar (c.toNat % 16)]
     else [c]) ++ strDumpsBody rest

/-- Serialise a JSON string including quotes. -/
def strDumps (s : Str) : Str := '"' :: (strDumpsBody s ++ ['"'])

mutual

/-- Serialise a JSON value as compact JSON text. -/
def Json.dumps : Json → Str
  | .null => 'n' :: ['u', 'l', 'l']
  | .bool true => 't' :: ['r', 'u', 'e']
  | .bool false => 'f' :: ['a', 'l', 's', 'e']
  | .int n => intDumps n
  | .fnum lex => lex
  | .nan => ['N', 'a', 'N']
  | .inf => ['I', 'n', 'f', 'i', 'n', 'i', 't', 'y']
  | .ninf => ['-', 'I', 'n', 'f', 'i', 'n', 'i', 't', 'y']
  | .str s => strDumps s
  | .arr .nil => ['[', ']']
  | .arr (.cons v vs) => '[' :: (v.dumps ++ vs.dumpsTail)
  | .obj .nil => ['\x7b', '\x7d']
  | .obj (.cons k v kvs) =>
    '\x7b' :: (strDumps k ++ ':' :: (v.dumps ++ kvs.dumpsTail))

/-- Serialise the tail of an array: each further element is preceded by a
comma and the list is closed with `]`. -/
def JArr.dumpsTail : JArr → Str
  | .nil => [']']
  | .cons v vs => ',' :: (v.dumps ++ vs.dumpsTail)

/-- Serialise the tail of an object: each further member is preceded by a
comma and the object is closed with a closing brace. -/
def JObj.dumpsTail : JObj → Str
  | .nil => ['\x7d']
  | .cons k v kvs => ',' :: (strDumps k ++ ':' :: (v.dumps ++ kvs.dumpsTail))

end

/-! ## Parsing (model of CPython `json.loads`) -/

/-- Hexadecimal digit value (both cases), as used by `\uXXXX` escapes. -/
def hexVal (c : Char) : Option Nat :=
  if '0' ≤ c && c ≤ '9' then some (c.toNat - 48)
  else if 'a' ≤ c && c ≤ 'f' then some (c.toNat - 87)
  else if 'A' ≤ c && c ≤ 'F' then some (c.toNat - 55)
  else none

/-- The single-character string escapes of the JSON decoder. -/
def escChar (c : Char) : Option Char :=
  if c = '"' then some '"'
  else if c = '\\' then some '\\'
  else if c = '/' then some '/'
  else if c = 'b' then some '\x08'
  else if c = 'f' then some '\x0c'
  else if c = 'n' then some '\n'
  else if c = 'r' then some '\r'
  else if c = 't' then some '\t'
  else none

/-- Decode one escape sequence (the input starts after the backslash),
returning the decoded character and the remaining input: the single-char
escapes, or `\uXXXX` with surrogate pairs combined.  Lone surrogates (which
CPython would keep as unpaired surrogate code units, unrepresentable in
`Char`) are rejected. -/
def parseEscUnit : Str → Option (Char × Str)
  | 'u' :: h1 :: h2 :: h3 :: h4 :: r =>
    match hexVal h1, hexVal h2, hexVal h3, hexVal h4 with
    | some a, some b, some c2, some d =>
      let n := ((a * 16 + b) * 16 + c2) * 16 + d
      if n < 0xd800 || 0xe000 ≤ n then some (Char.ofNat n, r)
      else if n < 0xdc00 then
        match r with
        | '\\' :: 'u' :: g1 :: g2 :: g3 :: g4 :: r2 =>
          match hexVal g1, hexVal g2, hexVal g3, hexVal g4 with
          | some a2, some b2, some c3, some d2 =>
            let m := ((a2 * 16 + b2) * 16 + c3) * 16 + d2
            if 0xdc00 ≤ m && m < 0xe000 then
              some (Char.ofNat (0x10000 + (n - 0xd800) * 0x400 + (m - 0xdc00)), r2)
            else none
          | _, _, _, _ => none
        | _ => none
      else none
    | _, _, _, _ => none
  | e :: r =>
    match escChar e with
    | some ec => some (ec, r)
    | none => none
  | [] => none

/-- Parse the body of a double-quoted JSON string after its opening quote,
returning the decoded characters and the input after the closing quote.
Unescaped control characters are rejected (CPython `strict=True`).  The
fuel (one unit per decoded character) is set by the `parseStringBody`
wrapper to the input length plus one, which always suffices. -/
def parseStringBodyF : Nat → Str → Option (Str × Str)
  | 0, _ => none
  | _ + 1, [] => none
  | fuel + 1, c :: rest =>
    if c = '"' then some ([], rest)
    else if c = '\\' then
      match parseEscUnit rest with
      | some (ec, r) =>
        match parseStringBodyF fuel r with
        | some (cs, r') => some (ec :: cs, r')
        | none => none
      | none => none
    else if c.toNat < 32 then none
    else
      match parseStringBodyF fuel rest with
      | some (cs, r') => some (c :: cs, r')
      | none => none

/-- Parse a JSON string body (see `parseStringBodyF`). -/
def parseStringBody (s : Str) : Option (Str × Str) :=
  parseStringBodyF (s.length + 1) s

/-- Lex the optional exponent part `([eE][+-]?\d+)?` of a JSON number; if
the exponent fails to match, the number ends before it (the regex group
matches empty). -/
def lexExpPart (lex : Str) (isF : Bool) (s : Str) : Option (Str × Bool × Str) :=
  match s with
  | e :: r =>
    if e = 'e' || e = 'E' then
      match r with
      | sg :: r1 =>
        if sg = '+' || sg = '-' then
          match r1.span isDigitChar with
          | ([], _) => some (lex, isF, s)
          | (ds, r2) => some (lex ++ e :: sg :: ds, true, r2)
        else
          match (sg :: r1).span isDigitChar with
          | ([], _) => some (lex, isF, s)
          | (ds, r2) => some (lex ++ e :: ds, true, r2)
      | [] => some (lex, isF, s)
    else some (lex, isF, s)
  | [] => some (lex, isF, s)

/-- Lex the optional fraction part `(\.\d+)?` of a JSON number, then the
exponent part. -/
def lexFracPart (lex : Str) (s : Str) : Option (Str × Bool × Str) :=
  match s with
  | [] => lexExpPart lex false []
  | c :: r =>
    if c = '.' then
      match r.span isDigitChar with
      | ([], _) => lexExpPart lex false (c :: r)
      | (ds, r2) => lexExpPart (lex ++ '.' :: ds) true r2
    else lexExpPart lex false (c :: r)

/-- Lex the integer part `(0|[1-9]\d*)` of a JSON number (after the optional
sign), then fraction and exponent. -/
def lexUIntPart (sgn : Str) (s : Str) : Option (Str × Bool × Str) :=
  match s with
  | [] => none
  | c :: r =>
    if c = '0' then lexFracPart (sgn ++ ['0']) r
    else if isDigitChar c then
      match r.span isDigitChar with
      | (ds, r2) => lexFracPart (sgn ++ c :: ds) r2
    else none

/-- Lex a JSON number per CPython's `NUMBER_RE`
`(-?(?:0|[1-9]\d*))(\.\d+)?([eE][-+]?\d+)?`, returning the lexeme, whether
it has a fraction/exponent part (so CPython would build a float), and the
rest of the input. -/
def lexNumber (s : Str) : Option (Str × Bool × Str) :=
  match s with
  | [] => lexUIntPart [] []
  | c :: s1 => if c = '-' then lexUIntPart ['-'] s1 else lexUIntPart [] (c :: s1)

/-- Value of a decimal digit string, most significant digit first. -/
def digitsVal (ds : Str) : Nat := ds.foldl (fun a c => a * 10 + dVal c) 0

/-- Integer value of an integer lexeme (optional leading minus). -/
def intLexVal (lex : Str) : Int :=
  match lex with
  | [] => (digitsVal [] : Int)
  | c :: ds => if c = '-' then -(digitsVal ds : Int) else (digitsVal (c :: ds) : Int)

/-- Turn a lexed number into a JSON value: `int` when it had no
fraction/exponent part, else the exact `fnum` lexeme. -/
def numFromLex : Option (Str × Bool × Str) → Option (Json × Str)
  | none => none
  | some (lex, false, r) => some (.int (intLexVal lex), r)
  | some (lex, true, r) => some (.fnum lex, r)

/-- Match an exact literal continuation (e.g. `ull` after `n`). -/
def expectLit (lit : Str) (s : Str) (v : Json) : Option (Json × Str) :=
  if lit.isPrefixOf s then some (v, s.drop lit.length) else none

mutual

/-- Parse one JSON value (CPython scanner), skipping leading whitespace.
The fuel decreases on each nested value and each further element/member;
`json_loads` passes `length + 1`, which always suffices because each fuel
step first consumes at least one character. -/
def parseValue : Nat → Str → Option (Json × Str)
  | 0, _ => none
  | fuel + 1, s =>
    match skipWs s with
    | [] => none
    | c :: rest =>
      if c = '\x7b' then
        match skipWs rest with
        | [] => none
        | c2 :: r2 =>
          if c2 = '\x7d' then some (.obj .nil, r2)
          else
            match parseMembers fuel (c2 :: r2) with
            | some (kvs, r) => some (.obj (mkObj kvs), r)
            | none => none
      else if c = '[' then
        match skipWs rest with
        | [] => none
        | c2 :: r2 =>
          if c2 = ']' then some (.arr .nil, r2)
          else
            match parseValue fuel (c2 :: r2) with
            | some (v, r) =>
              match parseElems fuel r with
              | some (vs, r') => some (.arr (.cons v vs), r')
              | none => none
            | none => none
      else if c = '"' then
        match parseStringBody rest with
        | some (cs, r) => some (.str cs, r)
        | none => none
      else if c = 'n' then expectLit ['u', 'l', 'l'] rest .null
      else if c = 't' then expectLit ['r', 'u', 'e'] rest (.bool true)
      else if c = 'f' then expectLit ['a', 'l', 's', 'e'] rest (.bool false)
      else if c = 'N' then expectLit ['a', 'N'] rest .nan
      else if c = 'I' then expectLit ['n', 'f', 'i', 'n', 'i', 't', 'y'] rest .inf
      else if c = '-' then
        match rest with
        | [] => numFromLex (lexNumber (c :: rest))
        | c2 :: r2 =>
          if c2 = 'I' then expectLit ['n', 'f', 'i', 'n', 'i', 't', 'y'] r2 .ninf
          else numFromLex (lexNumber (c :: rest))
      else numFromLex (lexNumber (c :: rest))

/-- Parse the continuation of a non-empty array after one element: either
`]` ends it or `,` is followed by the next element. -/
def parseElems : Nat → Str → Option (JArr × Str)
  | 0, _ => none
  | fuel + 1, s =>
    match skipWs s with
    | [] => none
    | c :: rest =>
      if c = ']' then some (.nil, rest)
      else if c = ',' then
        match parseValue fuel rest with
        | some (v, r) =>
          match parseElems fuel r with
          | some (vs, r') => some (.cons v vs, r')
          | none => none
        | none => none
      else none

/-- Parse one or more `"key": value` members starting at a double quote
(whitespace already skipped), up to and including the closing brace. -/
def parseMembers : Nat → Str → Option (JObj × Str)
  | 0, _ => none
  | fuel + 1, s =>
    match s with
    | '"' :: rest =>
      match parseStringBody rest with
      | some (k, r1) =>
        match skipWs r1 with
        | [] => none
        | c1 :: r2 =>
          if c1 = ':' then
            match parseValue fuel r2 with
            | some (v, r3) =>
              match skipWs r3 with
              | [] => none
              | c3 :: r4 =>
                if c3 = ',' then
                  match parseMembers fuel (skipWs r4) with
                  | some (kvs, r5) => some (.cons k v kvs, r5)
                  | none => none
                else if c3 = '\x7d' then some (.cons k v .nil, r4)
                else none
            | none => none
          else none
      | none => none
    | _ => none

end

/-- Model of Python `json.loads`: parse one value, then require only
whitespace to remain (otherwise CPython raises "Extra data"); any failure
is the `JSONDecodeError` path, modelled as `none`. -/
def json_loads (s : Str) : Option Json :=
  match parseValue (s.length + 1) s with
  | some (v, rest) => if skipWs rest = [] then some v else none
  | none => none

/-! ## Well-formedness and fuel bounds for the round trip -/

/-- Is this lexeme exactly a float lexeme (as `lexNumber` would produce,
with a fraction or exponent part, consuming the whole lexeme)? -/
def wfFloatLex (lex : Str) : Bool :=
  match lexNumber lex with
  | some (l, true, []) => l == lex
  | _ => false

mutual

/-- A value is serialisable as standard JSON and round-trippable: objects
have pairwise-distinct keys (they model Python dicts), `fnum` lexemes are
exactly float lexemes, and the non-JSON constants `NaN`, `Infinity` and
`-Infinity` are excluded. -/
def Json.wf : Json → Bool
  | .null => true
  | .bool _ => true
  | .int _ => true
  | .fnum lex => wfFloatLex lex
  | .nan => false
  | .inf => false
  | .ninf => false
  | .str _ => true
  | .arr vs => vs.wf
  | .obj kvs => kvs.wf

/-- All elements well-formed. -/
def JArr.wf : JArr → Bool
  | .nil => true
  | .cons v vs => v.wf && vs.wf

/-- Keys pairwise distinct and all values well-formed. -/
def JObj.wf : JObj → Bool
  | .nil => true
  | .cons k v tl => !tl.hasKey k && v.wf && tl.wf

end

mutual

/-- Fuel needed by `parseValue` on the serialisation of this value. -/
def Json.needFuel : Json → Nat
  | .arr (.cons v vs) => 1 + max v.needFuel vs.needFuelTail
  | .obj (.cons k v kvs) => 1 + JObj.needFuelMembers (.cons k v kvs)
  | _ => 1

/-- Fuel needed by `parseElems` on a serialised array tail. -/
def JArr.needFuelTail : JArr → Nat
  | .nil => 1
  | .cons v vs => 1 + max v.needFuel vs.needFuelTail

/-- Fuel needed by `parseMembers` on a serialised member sequence. -/
def JObj.needFuelMembers : JObj → Nat
  | .nil => 0
  | .cons _ v kvs => 1 + max v.needFuel kvs.needFuelMembers

end

/-! ## Python truthiness -/

/-- Python truthiness of a decoded JSON value (`if res:`).  For `fnum` the
model tests whether the decimal mantissa is non-zero; this agrees with
CPython except when float conversion underflows to `0.0` (e.g. `1e-9999`),
a corner no claim depends on. -/
def Json.truthy : Json → Bool
  | .null => false
  | .bool b => b
  | .int n => n != 0
  | .fnum lex =>
    (lex.takeWhile (fun c => c ≠ 'e' && c ≠ 'E')).any (fun c => '1' ≤ c && c ≤ '9')
  | .nan => true
  | .inf => true
  | .ninf => true
  | .str s => !s.isEmpty
  | .arr .nil => false
  | .arr (.cons _ _) => true
  | .obj .nil => false
  | .obj (.cons ..) => true


/-! ## Dates and `datetime.strptime(s, "%Y-%m-%d")` -/

/-- A calendar date as `datetime.date(year, month, day)` carries it. -/
structure Date where
  year : Nat
  month : Nat
  day : Nat
deriving DecidableEq

/-- Gregorian leap-year rule (as `datetime` uses). -/
def isLeapYear (y : Nat) : Bool := y % 4 = 0 && (y % 100 ≠ 0 || y % 400 = 0)

/-- Number of days in a month. -/
def daysInMonth (y m : Nat) : Nat :=
  if m = 2 then (if isLeapYear y then 29 else 28)
  else if m = 4 || m = 6 || m = 9 || m = 11 then 30
  else 31

/-- CPython `_strptime`'s regex fragment for `%m`, the *ordered* alternation
`1[0-2]|0[1-9]|[1-9]` (so one- or two-digit months are accepted). -/
def matchMonthRe : Str → Option (Nat × Str)
  | [] => none
  | [c1] => if '1' ≤ c1 && c1 ≤ '9' then some (dVal c1, []) else none
  | c1 :: c2 :: rest =>
    if c1 = '1' && ('0' ≤ c2 && c2 ≤ '2') then some (10 + dVal c2, rest)
    else if c1 = '0' && ('1' ≤ c2 && c2 ≤ '9') then some (dVal c2, rest)
    else if '1' ≤ c1 && c1 ≤ '9' then some (dVal c1, c2 :: rest)
    else none

/-- CPython `_strptime`'s regex fragment for `%d`, the *ordered* alternation
`3[01]|[12]\d|0[1-9]|[1-9]` (one- or two-digit days). -/
def matchDayRe : Str → Option (Nat × Str)
  | [] => none
  | [c1] => if '1' ≤ c1 && c1 ≤ '9' then some (dVal c1, []) else none
  | c1 :: c2 :: rest =>
    if c1 = '3' && ('0' ≤ c2 && c2 ≤ '1') then some (30 + dVal c2, rest)
    else if ('1' ≤ c1 && c1 ≤ '2') && isDigitChar c2 then some (dVal c1 * 10 + dVal c2, rest)
    else if c1 = '0' && ('1' ≤ c2 && c2 ≤ '9') then some (dVal c2, rest)
    else if '1' ≤ c1 && c1 ≤ '9' then some (dVal c1, c2 :: rest)
    else none

/-- Model of `datetime.strptime(s, "%Y-%m-%d")`: `%Y` is exactly four
digits (`\d\d\d\d`), `%m` and `%d` are the ordered alternations above, the
whole string must be consumed, and `datetime(year, month, day)` then raises
(modelled as `none`) for year `0` or a day beyond the month's length. -/
def strptimeYmd (s : Str) : Option Date :=
  match s with
  | y1 :: y2 :: y3 :: y4 :: h1 :: r1 =>
    if h1 = '-' then
      if isDigitChar y1 && isDigitChar y2 && isDigitChar y3 && isDigitChar y4 then
        match matchMonthRe r1 with
        | some (m, h2 :: r2) =>
          if h2 = '-' then
            match matchDayRe r2 with
            | some (d, []) =>
              let y := ((dVal y1 * 10 + dVal y2) * 10 + dVal y3) * 10 + dVal y4
              if 1 ≤ y && d ≤ daysInMonth y m then some ⟨y, m, d⟩ else none
            | _ => none
          else none
        | _ => none
      else none
    else none
  | _ => none

/-- Zero-padded two-digit rendering (`%02d` for values below 100). -/
def pad2 (n : Nat) : Str := [digitChar (n / 10 % 10), digitChar (n % 10)]

/-- Zero-padded four-digit rendering (`%04d` for values below 10000). -/
def pad4 (n : Nat) : Str :=
  [digitChar (n / 1000 % 10), digitChar (n / 100 % 10), digitChar (n / 10 % 10), digitChar (n % 10)]

/-- Python `str(d)` for a `datetime.date`: ISO `YYYY-MM-DD`. -/
def pyStrDate (d : Date) : Str := pad4 d.year ++ '-' :: (pad2 d.month ++ '-' :: pad2 d.day)

/-- The date-field initialisation of the review form (app.py lines
126-129): `strptime` the extracted string, and on *any* exception (the bare
`except:`) fall back to `datetime.now()`. -/
def dateInit (s : Str) (now : Date) : Date :=
  match strptimeYmd s with
  | some d => d
  | none => now

/-- The strict `YYYY-MM-DD` shape, formalising the spec's words "the ISO
format YYYY-MM-DD": exactly four digits, a hyphen, two digits, a hyphen,
two digits.  (Stated from the spec for claim C6; the code's `strptime`
accepts more.) -/
def specIsoFormat (s : Str) : Bool :=
  match s with
  | [y1, y2, y3, y4, h1, m1, m2, h2, d1, d2] =>
    isDigitChar y1 && isDigitChar y2 && isDigitChar y3 && isDigitChar y4 &&
    h1 = '-' && isDigitChar m1 && isDigitChar m2 && h2 = '-' &&
    isDigitChar d1 && isDigitChar d2
  | _ => false

/-! ## The response normalizer (`get_ai_analysis`, app.py lines 56-61) -/

/-- The fence-stripping and JSON-parsing step of `get_ai_analysis`
(app.py lines 57-58):
`json.loads(text.replace('```json', '').replace('```', '').strip())`,
with a parse error (caught by the surrounding `try`) modelled as `none`. -/
def normalizeResponse (t : Str) : Option Json :=
  json_loads (pyStrip (pyReplace (pyReplace t (S "```json") []) (S "```") []))

/-- Outcome of the `model.generate_content(prompt)` call (everything before
the normalisation): either some response text or an exception. -/
inductive GenOutcome where
  | fail
  | ok (text : Str)
deriving DecidableEq

/-- `get_ai_analysis` after the generation call: on any exception (from the
call itself or from `json.loads`) the handler shows an error and returns
`None`; otherwise the parsed value is returned. -/
def get_ai_analysis : GenOutcome → Option Json
  | .fail => none
  | .ok t => normalizeResponse t

/-- A response wrapped in one pair of markdown fences, the shape the spec's
round-trip property quantifies over. -/
def wrapFence (t : Str) : Str := S "```json" ++ '\n' :: (t ++ '\n' :: S "```")

/-- Does the parsed object carry the keys the spec calls required? -/
def hasRequiredKeys : Json → Bool
  | .obj kvs =>
    (kvs.lookup (S "title")).isSome && (kvs.lookup (S "date")).isSome &&
    (kvs.lookup (S "categories")).isSome
  | _ => false

/-! ## Session state and the analyze / submit / cancel handlers -/

/-- The session state the handlers touch: the single pending-result slot
`st.session_state['temp_res']` and the spreadsheet rows (the external
store, to which `append_row` appends). -/
structure AppState where
  temp_res : Option Json
  sheetRows : List (List Str)
deriving DecidableEq

/-- The analyze-button handler (app.py lines 90-98).  Returns the new state
plus `(ranAnalysis, warned)`: with empty case text (`if case_content:`
falsy) nothing is called and only a warning is shown; otherwise
`get_ai_analysis` runs and a truthy result is stored in `temp_res`
(`if res:`). -/
def analyzeClick (caseContent : Str) (gen : GenOutcome) (st : AppState) :
    AppState × Bool × Bool :=
  if caseContent = [] then (st, false, true)
  else
    match get_ai_analysis gen with
    | some v => if v.truthy then (⟨some v, st.sheetRows⟩, true, false) else (st, true, false)
    | none => (st, true, false)

/-! ## The review/edit form (app.py lines 102-139) -/

/-- The initial values of the review/edit form widgets.  `case_no`,
`facts`, `issues`, `laws`, `holdings`, `insight` come from `res.get(k, '')`;
`categories` and `title` from unguarded `res[k]`; the date from the guarded
`strptime` fallback; memo and URL start empty. -/
structure ReviewForm where
  case_no : Json
  categories : Json
  facts : Json
  issues : Json
  laws : Json
  date : Date
  title : Json
  holdings : Json
  insight : Json
  memoInit : Str
  urlInit : Str
deriving DecidableEq

/-- The empty-string default of `res.get(k, '')`. -/
def emptyStr : Json := .str []

/-- Build the review/edit form from the pending result (app.py lines
102-139).  `res['title']` (line 105) and `res['categories']` (line 119) are
unguarded: a missing key raises `KeyError` and the interaction dies
(`none`).  `res['date']` is read *inside* the `try` whose bare `except:`
catches every exception, including `KeyError`, so a missing or non-string
date falls back to `now`.  A non-dict pending result dies at `res['title']`
with `TypeError`. -/
def renderReview (res : Json) (now : Date) : Option ReviewForm :=
  match res with
  | .obj kvs =>
    match kvs.lookup (S "title") with
    | none => none
    | some title =>
      match kvs.lookup (S "categories") with
      | none => none
      | some cats =>
        some ⟨(kvs.lookup (S "case_no")).getD emptyStr,
              cats,
              (kvs.lookup (S "facts")).getD emptyStr,
              (kvs.lookup (S "issues")).getD emptyStr,
              (kvs.lookup (S "laws")).getD emptyStr,
              (match kvs.lookup (S "date") with
               | some (.str s) => dateInit s now
               | _ => now),
              title,
              (kvs.lookup (S "holdings")).getD emptyStr,
              (kvs.lookup (S "insight")).getD emptyStr,
              [], []⟩
  | _ => none

/-! ## The record assembler and submit / cancel handlers (app.py 142-176) -/

/-- The widget values at submit time (after any user edits). -/
structure SubmitForm where
  final_case_no : Str
  final_cats : Str
  final_facts : Str
  final_issues : Str
  final_laws : Str
  final_date : Date
  final_title : Str
  final_holdings : Str
  final_insight : Str
  case_url : Str
  user_memo : Str
deriving DecidableEq

/-- The `row` list built by the submit handler (app.py lines 148-160), in
source order: ID(case number), 선고일자 `str(final_date)`, 사건명, 분류,
사실관계, 쟁점, 관련법률, 판결요지, 실무적의의, 내메모, URL. -/
def assembleRow (f : SubmitForm) : List Str :=
  [f.final_case_no,
   pyStrDate f.final_date,
   f.final_title,
   f.final_cats,
   f.final_facts,
   f.final_issues,
   f.final_laws,
   f.final_holdings,
   f.final_insight,
   f.user_memo,
   f.case_url]

/-- The submit handler (app.py lines 144-171).  `sheetOk` says whether
`init_spreadsheet` returned a sheet (else the `if sheet:` else-branch only
shows an error); `appendRaises` says whether `sheet.append_row` raised (the
`except` shows an error).  Only on a successful append is the row stored,
`temp_res` deleted and a success message shown (the returned `Bool`). -/
def submitClick (sheetOk appendRaises : Bool) (f : SubmitForm) (st : AppState) :
    AppState × Bool :=
  if sheetOk then
    if appendRaises then (st, false)
    else (⟨none, st.sheetRows ++ [assembleRow f]⟩, true)
  else (st, false)

/-- The cancel-button handler (app.py lines 174-176): unconditionally
`del st.session_state['temp_res']`. -/
def cancelClick (st : AppState) : AppState := ⟨none, st.sheetRows⟩

/-! ## The browse view (app.py lines 179-227) -/

/-- The static legal taxonomy `LEGAL_TAXONOMY` (app.py lines 13-20). -/
def LEGAL_TAXONOMY : List (Str × List Str) :=
  [(S "민사법", [S "채권총론", S "채권각칙", S "물권법", S "가사(이혼/양육/상속)", S "민사소송법", S "집행법"]),
   (S "형사법", [S "형법총론", S "경제범죄(사기/횡령/배임)", S "재산범죄(절도/강도/손괴)", S "강력범죄", S "성범죄", S "교통범죄", S "형사소송법"]),
   (S "행정법", [S "일반행정법", S "조세법", S "노동법", S "환경법", S "토지/건축/개발", S "지방자치/공무원"]),
   (S "헌법", [S "기본권", S "통치구조", S "헌법재판"]),
   (S "지식재산권법", [S "특허법", S "저작권법", S "상표법", S "디자인보호법", S "부정경쟁방지법 등"]),
   (S "기타", [S "상법(회사/해상)", S "보험법", S "국제법", S "가맹/공정거래"])]

/-- The options of the level-1 category selectbox:
`["전체"] + list(LEGAL_TAXONOMY.keys())` (app.py line 188). -/
def cat1Options : List Str := S "전체" :: LEGAL_TAXONOMY.map Prod.fst

/-- One row of the browse table, fields named by the sheet's header row as
the read path addresses them: ID, 선고일자(date), 사건명(title), 분류
(categories), 사실관계(facts), 쟁점(issues), 관련법률(laws), 판결요지
(holdings), 실무적의의(insight), 내메모(memo), URL. -/
structure CaseRow where
  id : Str
  date : Str
  title : Str
  categories : Str
  facts : Str
  issues : Str
  laws : Str
  holdings : Str
  insight : Str
  memo : Str
  url : Str
deriving DecidableEq

/-- A token of a compiled regular-expression pattern: a literal character
or the `.` wildcard. -/
inductive RTok where
  | any
  | lit (c : Char)
deriving DecidableEq

/-- Model of Python `re` pattern compilation, *restricted to patterns in
which the only metacharacter is `.`* (the only regex feature any claim
exercises; patterns using other metacharacters are outside the model).
Every other character matches itself. -/
def compileRe (p : Str) : List RTok :=
  p.map (fun c => if c = '.' then .any else .lit c)

/-- Token match: `.` matches any character except a newline (the default,
no `re.DOTALL`); a literal matches itself. -/
def tokMatches : RTok → Char → Bool
  | .any, c => c ≠ '\n'
  | .lit l, c => l = c

/-- Does the token sequence match a prefix of the text? -/
def matchHere : List RTok → Str → Bool
  | [], _ => true
  | _ :: _, [] => false
  | t :: ts, c :: cs => tokMatches t c && matchHere ts cs

/-- Does the token sequence match starting at any position? -/
def reSearchAux (ts : List RTok) : Str → Bool
  | [] => matchHere ts []
  | c :: rest => matchHere ts (c :: rest) || reSearchAux ts rest

/-- Model of `re.search(pat, s)` truthiness, which is what pandas
`Series.str.contains(pat)` computes per cell with its default
`regex=True, case=True` (app.py lines 194 and 197-199). -/
def reSearch (pat s : Str) : Bool := reSearchAux (compileRe pat) s

/-- The Python `re` metacharacters.  A query containing none of them is
matched by `re.search` exactly as a literal substring. -/
def reSpecials : List Char :=
  ['.', '^', '$', '*', '+', '?', '\x7b', '\x7d', '[', ']', '\\', '|', '(', ')']

/-- The category filter (app.py lines 193-194):
`df[df['분류'].str.contains(selected_cat1)]`. -/
def catFilter (cat : Str) (rows : List CaseRow) : List CaseRow :=
  rows.filter (fun r => reSearch cat r.categories)

/-- The search filter (app.py lines 195-199): keep rows where the query
matches 사건명 or 쟁점 or 판결요지. -/
def searchFilter (q : Str) (rows : List CaseRow) : List CaseRow :=
  rows.filter (fun r => reSearch q r.title || reSearch q r.issues || reSearch q r.holdings)

/-- The browse view's filtering pipeline (app.py lines 193-199): the
category filter applies unless "전체" is selected, then the search filter
applies unless the query is empty. -/
def browseFilter (selectedCat1 searchQ : Str) (rows : List CaseRow) : List CaseRow :=
  let df1 := if selectedCat1 = S "전체" then rows else catFilter selectedCat1 rows
  if searchQ = [] then df1 else searchFilter searchQ df1

/-! ## Auxiliary definitions for the proofs and concrete claim inputs -/

/-- Characters that may legally follow a serialised value inside JSON text
(or the end of input): the delimiters `,`, `]` and the closing brace.  Used
to state that number parsing is not extended past a value boundary. -/
def followOk : Str → Bool
  | [] => true
  | c :: _ => c = ',' || c = ']' || c = '\x7d'

/-- The serialisation of a non-empty member sequence as it appears after
the opening brace: first member, then the comma-separated tail and the
closing brace. -/
def memberDumps (k : Str) (v : Json) (tl : JObj) : Str :=
  strDumps k ++ ':' :: (v.dumps ++ tl.dumpsTail)

/-- A well-formed extraction object with the required keys whose title
contains a code fence, the C1 counterexample input. -/
def fenceObj : Json :=
  .obj (.cons (S "title") (.str (S "```"))
    (.cons (S "date") (.str (S "2024-01-10"))
      (.cons (S "categories") (.str (S "형사법")) .nil)))

/-- What the normalizer actually recovers from `fenceObj`'s serialisation:
the backticks inside the title string are destroyed by the global
`replace`. -/
def fenceObjStripped : Json :=
  .obj (.cons (S "title") (.str [])
    (.cons (S "date") (.str (S "2024-01-10"))
      (.cons (S "categories") (.str (S "형사법")) .nil)))

/-- A well-formed extraction object with the required keys and no backticks
anywhere, used to witness the amended C1 round trip. -/
def cleanObj : Json :=
  .obj (.cons (S "title") (.str (S "손해배상(기)"))
    (.cons (S "date") (.str (S "2024-01-10"))
      (.cons (S "categories") (.str (S "형사법>경제범죄(사기/횡령/배임)>사기")) .nil)))

/-- Browse-view row with a purely civil-law classification (spec's
filtering example, row 1). -/
def civilRow : CaseRow :=
  ⟨S "2023다1", S "2024-01-10", S "대여금", S "민사법>채권법>...", [], [], [], [], [], [], []⟩

/-- Browse-view row with a criminal-law classification (spec's filtering
example, row 2). -/
def criminalRow : CaseRow :=
  ⟨S "2023도2", S "2024-02-10", S "사기", S "형사법>형법각칙>사기", [], S "사기죄의 기망행위", [], [], [], [], []⟩

/-- Browse-view row with a multi-valued classification (spec's filtering
example, row 3). -/
def mixedRow : CaseRow :=
  ⟨S "2023도3", S "2024-03-10", S "사기/손해배상", S "형사법>형법각칙>사기 | 민사법>...>...", [], [], [], [], [], [], []⟩

/-- A row whose searched columns contain no literal dot, used to refute the
substring reading of the search filter for the regex query `"."`. -/
def dotlessRow : CaseRow :=
  ⟨S "1", S "2024-01-10", S "abc", S "기타", [], S "def", [], S "ghi", [], [], []⟩

/-- A pending result with title and categories present but no date key
(C7's counterexample input). -/
def noDateRes : JObj :=
  .cons (S "title") (.str (S "t")) (.cons (S "categories") (.str (S "c")) .nil)

/-- An arbitrary submit-form value for concrete state-transition inputs. -/
def sampleForm : SubmitForm :=
  ⟨S "2023다12345", S "민사법>채권총론>불법행위", S "사실관계", S "쟁점",
   S "민법 제750조", ⟨2024, 1, 10⟩, S "손해배상(기)", S "판결요지", S "실무적 의의",
   S "https://case.example", S "메모"⟩

/-! # Theorems

First, machinery about the string primitives. -/

theorem skipWs_cons_neg {c : Char} (l : Str) (h : isJsonWs c = false) :
    skipWs (c :: l) = c :: l := by
  simp [skipWs, h]

theorem isPrefixOf_append_self (l r : Str) : l.isPrefixOf (l ++ r) = true := by
  rw [List.isPrefixOf_iff_prefix]
  exact List.prefix_append l r

theorem expectLit_exact (lit rest : Str) (v : Json) :
    expectLit lit (lit ++ rest) v = some (v, rest) := by
  simp [expectLit, isPrefixOf_append_self, List.drop_left]

theorem replLoopF_nil (p₀ : Char) (pt new : Str) (fuel : Nat) :
    replLoopF p₀ pt new fuel [] = [] := by
  cases fuel <;> rfl

theorem replLoopF_no_occ (p₀ : Char) (pt new : Str) :
    ∀ (fuel : Nat) (s : Str), ¬((p₀ :: pt) <:+: s) → replLoopF p₀ pt new fuel s = s
  | 0, s, _ => rfl
  | _ + 1, [], _ => rfl
  | fuel + 1, c :: rest, h => by
    have hpre : ((p₀ :: pt).isPrefixOf (c :: rest)) = false := by
      rw [Bool.eq_false_iff]
      intro hq
      exact h (List.IsPrefix.isInfix (List.isPrefixOf_iff_prefix.mp hq))
    have htl : ¬((p₀ :: pt) <:+: rest) := fun hq => h (List.infix_cons hq)
    simp only [replLoopF, hpre, Bool.false_eq_true, if_false]
    rw [replLoopF_no_occ p₀ pt new fuel rest htl]

theorem pyReplace_no_occ {p₀ : Char} {pt : Str} (s new : Str)
    (h : ¬((p₀ :: pt) <:+: s)) : pyReplace s (p₀ :: pt) new = s := by
  simp only [pyReplace]
  exact replLoopF_no_occ p₀ pt new s.length s h

theorem prefix_append_cons {p x y : Str} {c : Char} (h : p <+: x ++ c :: y) :
    p <+: x ∨ c ∈ p := by
  induction p generalizing x with
  | nil => exact Or.inl (List.nil_prefix)
  | cons a p' ih =>
    cases x with
    | nil =>
      rcases List.cons_prefix_cons.mp h with ⟨rfl, _⟩
      exact Or.inr (List.mem_cons_self _ _)
    | cons d x' =>
      rcases List.cons_prefix_cons.mp h with ⟨rfl, h2⟩
      rcases ih h2 with h3 | h3
      · exact Or.inl (List.cons_prefix_cons.mpr ⟨rfl, h3⟩)
      · exact Or.inr (List.mem_cons_of_mem _ h3)

theorem not_infix_append_cons {p x y : Str} {c : Char} (hc : c ∉ p)
    (hx : ¬(p <:+: x)) (hy : ¬(p <:+: y)) : ¬(p <:+: x ++ c :: y) := by
  induction x with
  | nil =>
    intro h
    rcases List.infix_cons_iff.mp h with h1 | h1
    · cases p with
      | nil => exact hx List.nil_infix
      | cons a p' =>
        rcases List.cons_prefix_cons.mp h1 with ⟨rfl, _⟩
        exact hc (List.mem_cons_self _ _)
    · exact hy h1
  | cons d x' ih =>
    intro h
    have hx' : ¬(p <:+: x') := fun hq => hx (List.infix_cons hq)
    rcases List.infix_cons_iff.mp h with h1 | h1
    · rcases prefix_append_cons (x := d :: x') h1 with h2 | h2
      · exact hx h2.isInfix
      · exact hc h2
    · exact ih hx' h1

theorem replLoopF_head_match (p₀ : Char) (pt new z : Str) (fuel : Nat)
    (hz : ¬((p₀ :: pt) <:+: z)) :
    replLoopF p₀ pt new (fuel + 1) ((p₀ :: pt) ++ z) = new ++ z := by
  have : (p₀ :: pt) ++ z = p₀ :: (pt ++ z) := rfl
  rw [this]
  simp only [replLoopF]
  rw [if_pos]
  · rw [List.drop_append_of_le_length (Nat.le_refl _), List.drop_length,
      List.nil_append, replLoopF_no_occ p₀ pt new fuel z hz]
  · have : p₀ :: (pt ++ z) = (p₀ :: pt) ++ z := rfl
    rw [this]
    exact isPrefixOf_append_self _ _

theorem pyReplace_head_match (p₀ : Char) (pt new z : Str)
    (hz : ¬((p₀ :: pt) <:+: z)) :
    pyReplace ((p₀ :: pt) ++ z) (p₀ :: pt) new = new ++ z := by
  simp only [pyReplace]
  have hlen : ((p₀ :: pt) ++ z).length = (pt ++ z).length + 1 := by
    simp
  rw [hlen]
  exact replLoopF_head_match p₀ pt new z _ hz

theorem replLoopF_tail_match (p₀ : Char) (pt new : Str) :
    ∀ (x : Str) (fuel : Nat), (x ++ (p₀ :: pt)).length ≤ fuel →
      ¬((p₀ :: pt) <:+: (x ++ (p₀ :: pt).dropLast)) →
      replLoopF p₀ pt new fuel (x ++ (p₀ :: pt)) = x ++ new
  | [], fuel, hf, _ => by
    rcases fuel with _ | g
    · simp at hf
    · rw [List.nil_append]
      simp only [replLoopF]
      rw [if_pos (List.isPrefixOf_iff_prefix.mpr (List.prefix_refl _)),
        List.drop_length, replLoopF_nil, List.append_nil, List.nil_append]
  | d :: x', fuel, hf, h => by
    rcases fuel with _ | g
    · simp at hf
    have hcons : (d :: x') ++ (p₀ :: pt) = d :: (x' ++ (p₀ :: pt)) := rfl
    rw [hcons]
    simp only [replLoopF]
    have hpre : ((p₀ :: pt).isPrefixOf (d :: (x' ++ (p₀ :: pt)))) = false := by
      rw [Bool.eq_false_iff]
      intro hq
      apply h
      apply List.IsPrefix.isInfix
      have h1 : (p₀ :: pt) <+: (d :: x') ++ (p₀ :: pt) := by
        rw [hcons]; exact List.isPrefixOf_iff_prefix.mp hq
      have h2 : ((d :: x') ++ (p₀ :: pt).dropLast) <+: ((d :: x') ++ (p₀ :: pt)) := by
        rcases List.dropLast_prefix (p₀ :: pt) with ⟨t, ht⟩
        exact ⟨t, by rw [List.append_assoc, ht]⟩
      refine List.prefix_of_prefix_length_le h1 h2 ?_
      simp only [List.length_append, List.length_cons, List.length_dropLast]
      omega
    simp only [hpre, Bool.false_eq_true, if_false]
    have h' : ¬((p₀ :: pt) <:+: (x' ++ (p₀ :: pt).dropLast)) := by
      intro hq
      exact h (List.infix_cons hq)
    have hf' : (x' ++ (p₀ :: pt)).length ≤ g := by
      simp at hf ⊢
      omega
    rw [replLoopF_tail_match p₀ pt new x' g hf' h']
    rfl

theorem pyReplace_tail_match (p₀ : Char) (pt new x : Str)
    (h : ¬((p₀ :: pt) <:+: (x ++ (p₀ :: pt).dropLast))) :
    pyReplace (x ++ (p₀ :: pt)) (p₀ :: pt) new = x ++ new := by
  simp only [pyReplace]
  exact replLoopF_tail_match p₀ pt new x _ (Nat.le_refl _) h

theorem pyStrip_clean {a b : Char} (m : Str) (ha : isPySpace a = false)
    (hb : isPySpace b = false) : pyStrip (a :: (m ++ [b])) = a :: (m ++ [b]) := by
  have h1 : List.dropWhile isPySpace (a :: (m ++ [b])) = a :: (m ++ [b]) := by
    rw [List.dropWhile_cons, ha]
    simp
  have h2 : (a :: (m ++ [b])).reverse = b :: (m.reverse ++ [a]) := by
    simp
  have h3 : List.dropWhile isPySpace (b :: (m.reverse ++ [a])) = b :: (m.reverse ++ [a]) := by
    rw [List.dropWhile_cons, hb]
    simp
  simp only [pyStrip]
  rw [h1, h2, h3]
  simp

theorem pyStrip_wrapped {a b : Char} (m : Str) (ha : isPySpace a = false)
    (hb : isPySpace b = false) :
    pyStrip ('\n' :: ((a :: (m ++ [b])) ++ ['\n'])) = a :: (m ++ [b]) := by
  have h0 : List.dropWhile isPySpace ('\n' :: ((a :: (m ++ [b])) ++ ['\n'])) =
      List.dropWhile isPySpace ((a :: (m ++ [b])) ++ ['\n']) := by
    rw [List.dropWhile_cons]
    norm_num [isPySpace]
  have h1 : List.dropWhile isPySpace ((a :: (m ++ [b])) ++ ['\n']) =
      (a :: (m ++ [b])) ++ ['\n'] := by
    have : (a :: (m ++ [b])) ++ ['\n'] = a :: ((m ++ [b]) ++ ['\n']) := rfl
    rw [this, List.dropWhile_cons, ha]
    simp
  have h2 : ((a :: (m ++ [b])) ++ ['\n']).reverse = '\n' :: (b :: (m.reverse ++ [a])) := by
    simp
  have h3 : List.dropWhile isPySpace ('\n' :: (b :: (m.reverse ++ [a]))) =
      List.dropWhile isPySpace (b :: (m.reverse ++ [a])) := by
    rw [List.dropWhile_cons]
    norm_num [isPySpace]
  have h4 : List.dropWhile isPySpace (b :: (m.reverse ++ [a])) = b :: (m.reverse ++ [a]) := by
    rw [List.dropWhile_cons, hb]
    simp
  simp only [pyStrip]
  rw [h0, h1, h2, h3, h4]
  simp

/-! ### Digits and decimal renderings -/

theorem dVal_digitChar : ∀ n, n < 10 → dVal (digitChar n) = n := by decide

theorem isDigit_digitChar : ∀ n, n < 10 → isDigitChar (digitChar n) = true := by decide

theorem digitChar_eq_zero_iff : ∀ n, n < 10 → (digitChar n = '0' ↔ n = 0) := by decide

theorem digit_toNat {c : Char} (h : isDigitChar c = true) :
    48 ≤ c.toNat ∧ c.toNat ≤ 57 := by
  simp only [isDigitChar, Bool.and_eq_true, decide_eq_true_eq] at h
  rcases h with ⟨h1, h2⟩
  rw [Char.le_def] at h1 h2
  exact ⟨h1, h2⟩

theorem char_ne_of_toNat {c d : Char} (h : c.toNat ≠ d.toNat) : c ≠ d :=
  fun he => h (he ▸ rfl)

theorem ws_not_digit {c : Char} (h : isDigitChar c = true) : isJsonWs c = false := by
  have hb := digit_toNat h
  by_contra hw
  rw [Bool.not_eq_false] at hw
  simp only [isJsonWs, Bool.or_eq_true, decide_eq_true_eq] at hw
  rcases hw with ((rfl | rfl) | rfl) | rfl <;> exact absurd hb (by decide)

theorem natDigitsAux_stable :
    ∀ (f₁ f₂ n : Nat), n < f₁ → n < f₂ → natDigitsAux f₁ n = natDigitsAux f₂ n
  | f₁ + 1, f₂ + 1, n, h1, h2 => by
    simp only [natDigitsAux]
    by_cases h : n < 10
    · simp [h]
    · simp only [h, if_false]
      rw [natDigitsAux_stable f₁ f₂ (n / 10) (by omega) (by omega)]

theorem natDumps_unfold (n : Nat) :
    natDumps n = if n < 10 then [digitChar n] else natDumps (n / 10) ++ [digitChar (n % 10)] := by
  by_cases h : n < 10
  · simp [natDumps, natDigitsAux, h]
  · simp only [h, if_false]
    have h1 : natDigitsAux (n + 1) n = natDigitsAux n (n / 10) ++ [digitChar (n % 10)] := by
      simp [natDigitsAux, h]
    rw [natDumps, h1, natDigitsAux_stable n (n / 10 + 1) (n / 10) (by omega) (by omega)]
    rfl

theorem natDumps_all_digit : ∀ n, ∀ c ∈ natDumps n, isDigitChar c = true := by
  intro n
  induction n using Nat.strong_induction_on with
  | _ n ih =>
    rw [natDumps_unfold]
    by_cases h : n < 10
    · simp only [h, if_true, List.mem_singleton]
      rintro c rfl
      exact isDigit_digitChar n h
    · simp only [h, if_false, List.mem_append, List.mem_singleton]
      rintro c (hc | rfl)
      · exact ih (n / 10) (by omega) c hc
      · exact isDigit_digitChar _ (Nat.mod_lt _ (by omega))

theorem digitsVal_append (xs : Str) (d : Char) :
    digitsVal (xs ++ [d]) = digitsVal xs * 10 + dVal d := by
  simp [digitsVal, List.foldl_append]

theorem digitsVal_natDumps : ∀ n, digitsVal (natDumps n) = n := by
  intro n
  induction n using Nat.strong_induction_on with
  | _ n ih =>
    rw [natDumps_unfold]
    by_cases h : n < 10
    · simp only [h, if_true]
      simp [digitsVal, dVal_digitChar n h]
    · simp only [h, if_false]
      rw [digitsVal_append, ih (n / 10) (by omega),
        dVal_digitChar _ (Nat.mod_lt _ (by omega))]
      omega

theorem natDumps_head : ∀ n, ∃ c t, natDumps n = c :: t ∧ isDigitChar c = true ∧
    (c = '0' ↔ n = 0) := by
  intro n
  induction n using Nat.strong_induction_on with
  | _ n ih =>
    rw [natDumps_unfold]
    by_cases h : n < 10
    · exact ⟨digitChar n, [], by simp [h], isDigit_digitChar n h, digitChar_eq_zero_iff n h⟩
    · rcases ih (n / 10) (by omega) with ⟨c, t, hct, hd, hz⟩
      refine ⟨c, t ++ [digitChar (n % 10)], by simp [h, hct], hd, ?_⟩
      rw [hz]
      omega

/-! ### takeWhile / dropWhile over a digit block -/

theorem takeWhile_block (p : Char → Bool) :
    ∀ (ds rest : Str), (∀ c ∈ ds, p c = true) → (∀ c t, rest = c :: t → p c = false) →
      List.takeWhile p (ds ++ rest) = ds ∧ List.dropWhile p (ds ++ rest) = rest
  | [], rest, _, hrest => by
    cases rest with
    | nil => simp
    | cons c t =>
      rw [List.nil_append, List.takeWhile_cons, List.dropWhile_cons, hrest c t rfl]
      simp
  | d :: ds, rest, hds, hrest => by
    have hd : p d = true := hds d (List.mem_cons_self _ _)
    have ih := takeWhile_block p ds rest (fun c hc => hds c (List.mem_cons_of_mem _ hc)) hrest
    rw [List.cons_append, List.takeWhile_cons, List.dropWhile_cons, hd]
    simp only [if_true]
    exact ⟨by rw [ih.1], ih.2⟩

theorem followOk_head {rest : Str} (h : followOk rest = true) :
    ∀ c t, rest = c :: t → isDigitChar c = false ∧ c ≠ '.' ∧ c ≠ 'e' ∧ c ≠ 'E' ∧ c ≠ 'I' := by
  rintro c t rfl
  simp only [followOk, Bool.or_eq_true, decide_eq_true_eq] at h
  rcases h with (rfl | rfl) | rfl <;> exact ⟨by decide, by decide, by decide, by decide, by decide⟩

/-! ### String serialisation round trip -/

theorem hexVal_hexDigitChar : ∀ n, n < 16 → hexVal (hexDigitChar n) = some n := by decide

theorem strDumpsBody_length (s : Str) : s.length ≤ (strDumpsBody s).length := by
  induction s with
  | nil => simp [strDumpsBody]
  | cons c s' ih =>
    simp only [strDumpsBody, List.length_append, List.length_cons]
    by_cases h1 : c = '"'
    · simp [h1]; omega
    · by_cases h2 : c = '\\'
      · simp [h1, h2]; omega
      · by_cases h3 : c.toNat < 32
        · simp [h1, h2, h3]; omega
        · simp [h1, h2, h3]; omega

theorem parseStringBodyF_dumps :
    ∀ (s : Str) (fuel : Nat) (rest : Str), s.length < fuel →
      parseStringBodyF fuel (strDumpsBody s ++ ('"' :: rest)) = some (s, rest)
  | [], fuel, rest, hf => by
    rcases fuel with _ | f
    · omega
    · rfl
  | c :: s', fuel, rest, hf => by
    rcases fuel with _ | f
    · simp at hf
    have hf' : s'.length < f := by simp at hf; omega
    have ih := parseStringBodyF_dumps s' f rest hf'
    by_cases hq : c = '"'
    · subst hq
      have hshape : strDumpsBody ('"' :: s') ++ ('"' :: rest) =
          '\\' :: '"' :: (strDumpsBody s' ++ ('"' :: rest)) := by
        simp [strDumpsBody]
      rw [hshape]
      have step : parseStringBodyF (f + 1) ('\\' :: '"' :: (strDumpsBody s' ++ ('"' :: rest))) =
          match parseStringBodyF f (strDumpsBody s' ++ ('"' :: rest)) with
          | some (cs, r') => some ('"' :: cs, r')
          | none => none := rfl
      rw [step, ih]
    · by_cases hb : c = '\\'
      · subst hb
        have hshape : strDumpsBody ('\\' :: s') ++ ('"' :: rest) =
            '\\' :: '\\' :: (strDumpsBody s' ++ ('"' :: rest)) := by
          simp [strDumpsBody]
        rw [hshape]
        have step : parseStringBodyF (f + 1) ('\\' :: '\\' :: (strDumpsBody s' ++ ('"' :: rest))) =
            match parseStringBodyF f (strDumpsBody s' ++ ('"' :: rest)) with
            | some (cs, r') => some ('\\' :: cs, r')
            | none => none := rfl
        rw [step, ih]
      · by_cases hctl : c.toNat < 32
        · have hshape : strDumpsBody (c :: s') ++ ('"' :: rest) =
              '\\' :: 'u' :: '0' :: '0' :: hexDigitChar (c.toNat / 16) ::
                hexDigitChar (c.toNat % 16) :: (strDumpsBody s' ++ ('"' :: rest)) := by
            simp [strDumpsBody, hq, hb, hctl]
          rw [hshape]
          have hesc : parseEscUnit ('u' :: '0' :: '0' :: hexDigitChar (c.toNat / 16) ::
              hexDigitChar (c.toNat % 16) :: (strDumpsBody s' ++ ('"' :: rest))) =
              some (c, strDumpsBody s' ++ ('"' :: rest)) := by
            simp only [parseEscUnit]
            rw [show hexVal '0' = some 0 from rfl,
              hexVal_hexDigitChar (c.toNat / 16) (by omega),
              hexVal_hexDigitChar (c.toNat % 16) (by omega)]
            have hval : ((0 * 16 + 0) * 16 + c.toNat / 16) * 16 + c.toNat % 16 = c.toNat := by
              omega
            simp only [hval]
            rw [if_pos (by simp; omega), Char.ofNat_toNat]
          have step : parseStringBodyF (f + 1) ('\\' :: 'u' :: '0' :: '0' ::
              hexDigitChar (c.toNat / 16) :: hexDigitChar (c.toNat % 16) ::
              (strDumpsBody s' ++ ('"' :: rest))) =
              match parseEscUnit ('u' :: '0' :: '0' :: hexDigitChar (c.toNat / 16) ::
                  hexDigitChar (c.toNat % 16) :: (strDumpsBody s' ++ ('"' :: rest))) with
              | some (ec, r) =>
                match parseStringBodyF f r with
                | some (cs, r') => some (ec :: cs, r')
                | none => none
              | none => none := rfl
          rw [step, hesc]
          dsimp only
          rw [ih]
        · have hshape : strDumpsBody (c :: s') ++ ('"' :: rest) =
              c :: (strDumpsBody s' ++ ('"' :: rest)) := by
            simp [strDumpsBody, hq, hb, hctl]
          rw [hshape]
          simp only [parseStringBodyF, if_neg hq, if_neg hb, if_neg hctl]
          rw [ih]

theorem parseStringBody_dumps (s rest : Str) :
    parseStringBody (strDumpsBody s ++ ('"' :: rest)) = some (s, rest) := by
  apply parseStringBodyF_dumps
  have h := strDumpsBody_length s
  simp only [List.length_append, List.length_cons]
  omega

/-! ### Number lexing: integers -/

theorem followOk_cons {c : Char} {t : Str} (h : followOk (c :: t) = true) :
    c = ',' ∨ c = ']' ∨ c = '\x7d' := by
  simp only [followOk, Bool.or_eq_true, decide_eq_true_eq] at h
  tauto

theorem lexExpPart_follow (lex : Str) (isF : Bool) {rest : Str} (h : followOk rest = true) :
    lexExpPart lex isF rest = some (lex, isF, rest) := by
  cases rest with
  | nil => rfl
  | cons c t => rcases followOk_cons h with rfl | rfl | rfl <;> rfl

theorem lexFracPart_follow (lex : Str) {rest : Str} (h : followOk rest = true) :
    lexFracPart lex rest = some (lex, false, rest) := by
  cases rest with
  | nil => rfl
  | cons c t => rcases followOk_cons h with rfl | rfl | rfl <;> rfl

theorem lexUIntPart_natDumps (n : Nat) (sgn : Str) {rest : Str} (h : followOk rest = true) :
    lexUIntPart sgn (natDumps n ++ rest) = some (sgn ++ natDumps n, false, rest) := by
  rcases natDumps_head n with ⟨c, t, hct, hd, hz⟩
  by_cases hn : n = 0
  · subst hn
    have h0 : natDumps 0 = ['0'] := by decide
    rw [h0]
    have step : lexUIntPart sgn ((['0'] : Str) ++ rest) = lexFracPart (sgn ++ ['0']) rest := rfl
    rw [step, lexFracPart_follow _ h]
  · have hc0 : ¬(c = '0') := fun he => hn (hz.mp he)
    have hdig : ∀ d ∈ t, isDigitChar d = true := by
      intro d hdm
      exact natDumps_all_digit n d (by rw [hct]; exact List.mem_cons_of_mem _ hdm)
    have hrest : ∀ d u, rest = d :: u → isDigitChar d = false := by
      intro d u he
      exact (followOk_head h d u he).1
    have hspan : (t ++ rest).span isDigitChar = (t, rest) := by
      rw [List.span_eq_take_drop]
      have hblock := takeWhile_block isDigitChar t rest hdig hrest
      rw [hblock.1, hblock.2]
    rw [hct]
    have hshape : ((c :: t) ++ rest : Str) = c :: (t ++ rest) := rfl
    rw [hshape]
    simp only [lexUIntPart, if_neg hc0, hd, if_true]
    rw [hspan]
    simp only
    rw [lexFracPart_follow _ h]

theorem intDumps_nonneg (n : Int) (h : ¬(n < 0)) : intDumps n = natDumps n.toNat := by
  simp [intDumps, h]

theorem intDumps_neg (n : Int) (h : n < 0) : intDumps n = '-' :: natDumps (-n).toNat := by
  simp [intDumps, h]

theorem minus_not_digit {c : Char} (hd : isDigitChar c = true) : ¬(c = '-') := by
  have hb := digit_toNat hd
  exact char_ne_of_toNat (by intro he; rw [he] at hb; exact absurd hb (by decide))

theorem lexNumber_intDumps (n : Int) {rest : Str} (h : followOk rest = true) :
    lexNumber (intDumps n ++ rest) = some (intDumps n, false, rest) := by
  by_cases hneg : n < 0
  · rw [intDumps_neg n hneg]
    have hshape : (('-' :: natDumps (-n).toNat) ++ rest : Str) =
        '-' :: (natDumps (-n).toNat ++ rest) := rfl
    rw [hshape]
    have step : lexNumber ('-' :: (natDumps (-n).toNat ++ rest)) =
        lexUIntPart ['-'] (natDumps (-n).toNat ++ rest) := rfl
    rw [step, lexUIntPart_natDumps _ _ h]
    rfl
  · rw [intDumps_nonneg n hneg]
    rcases natDumps_head n.toNat with ⟨c, t, hct, hd, _⟩
    rw [hct]
    have hshape : ((c :: t) ++ rest : Str) = c :: (t ++ rest) := rfl
    rw [hshape]
    simp only [lexNumber, if_neg (minus_not_digit hd)]
    have : (c :: (t ++ rest) : Str) = (c :: t) ++ rest := rfl
    rw [this, ← hct, lexUIntPart_natDumps _ _ h]
    rfl

theorem intLexVal_intDumps (n : Int) : intLexVal (intDumps n) = n := by
  by_cases hneg : n < 0
  · rw [intDumps_neg n hneg]
    have step : intLexVal ('-' :: natDumps (-n).toNat) =
        -(digitsVal (natDumps (-n).toNat) : Int) := rfl
    rw [step, digitsVal_natDumps]
    omega
  · rw [intDumps_nonneg n hneg]
    rcases natDumps_head n.toNat with ⟨c, t, hct, hd, _⟩
    rw [hct]
    simp only [intLexVal, if_neg (minus_not_digit hd)]
    rw [← hct, digitsVal_natDumps]
    omega

/-! ### Dispatching `parseValue` on a digit head -/

theorem digit_ne {c : Char} (hd : isDigitChar c = true) (d : Char)
    (h : d.toNat < 48 ∨ 57 < d.toNat) : ¬(c = d) := by
  have hb := digit_toNat hd
  exact char_ne_of_toNat (by omega)

theorem digit_dispatch {c : Char} (hd : isDigitChar c = true) (fuel : Nat) (s : Str) :
    parseValue (fuel + 1) (c :: s) = numFromLex (lexNumber (c :: s)) := by
  have hws : isJsonWs c = false := ws_not_digit hd
  have hskip : skipWs (c :: s) = c :: s := skipWs_cons_neg s hws
  simp only [parseValue, hskip]
  rw [if_neg (digit_ne hd '\x7b' (by decide)), if_neg (digit_ne hd '[' (by decide)),
    if_neg (digit_ne hd '"' (by decide)), if_neg (digit_ne hd 'n' (by decide)),
    if_neg (digit_ne hd 't' (by decide)), if_neg (digit_ne hd 'f' (by decide)),
    if_neg (digit_ne hd 'N' (by decide)), if_neg (digit_ne hd 'I' (by decide)),
    if_neg (minus_not_digit hd)]

theorem parseValue_intDumps (fuel : Nat) (n : Int) {rest : Str} (h : followOk rest = true) :
    parseValue (fuel + 1) (intDumps n ++ rest) = some (.int n, rest) := by
  by_cases hneg : n < 0
  · rw [intDumps_neg n hneg]
    rcases natDumps_head (-n).toNat with ⟨c, t, hct, hd, _⟩
    rw [hct]
    have hshape : (('-' :: c :: t) ++ rest : Str) = '-' :: c :: (t ++ rest) := rfl
    rw [hshape]
    have hskip : skipWs ('-' :: c :: (t ++ rest)) = '-' :: c :: (t ++ rest) := by
      rw [skipWs_cons_neg _ (by decide)]
    simp only [parseValue, hskip]
    rw [if_neg (by decide : ¬('-' = '\x7b')), if_neg (by decide : ¬('-' = '[')),
      if_neg (by decide : ¬('-' = '"')), if_neg (by decide : ¬('-' = 'n')),
      if_neg (by decide : ¬('-' = 't')), if_neg (by decide : ¬('-' = 'f')),
      if_neg (by decide : ¬('-' = 'N')), if_neg (by decide : ¬('-' = 'I'))]
    simp only [if_true]
    rw [if_neg (digit_ne hd 'I' (by decide))]
    have hlex : lexNumber (intDumps n ++ rest) = some (intDumps n, false, rest) :=
      lexNumber_intDumps n h
    rw [intDumps_neg n hneg, hct] at hlex
    have : ('-' :: c :: (t ++ rest) : Str) = ('-' :: c :: t) ++ rest := rfl
    rw [this, hlex]
    simp only [numFromLex]
    rw [← hct, ← intDumps_neg n hneg, intLexVal_intDumps]
  · rw [intDumps_nonneg n hneg]
    rcases natDumps_head n.toNat with ⟨c, t, hct, hd, _⟩
    rw [hct]
    have hshape : ((c :: t) ++ rest : Str) = c :: (t ++ rest) := rfl
    rw [hshape, digit_dispatch hd]
    have hlex : lexNumber (intDumps n ++ rest) = some (intDumps n, false, rest) :=
      lexNumber_intDumps n h
    rw [intDumps_nonneg n hneg, hct] at hlex
    have : (c :: (t ++ rest) : Str) = (c :: t) ++ rest := rfl
    rw [this, hlex]
    simp only [numFromLex]
    rw [← hct, ← intDumps_nonneg n hneg, intLexVal_intDumps]

/-! ### Number lexing: float lexemes -/

theorem takeWhile_extend (p : Char → Bool) {rest : Str}
    (hrest : ∀ c t, rest = c :: t → p c = false) :
    ∀ r, List.takeWhile p (r ++ rest) = List.takeWhile p r ∧
      List.dropWhile p (r ++ rest) =
        (if List.dropWhile p r = [] then rest else List.dropWhile p r ++ rest)
  | [] => by
    constructor
    · cases rest with
      | nil => rfl
      | cons c t =>
        rw [List.nil_append, List.takeWhile_cons, hrest c t rfl]
        rfl
    · cases rest with
      | nil => simp
      | cons c t =>
        rw [List.nil_append, List.dropWhile_cons, hrest c t rfl]
        simp
  | c :: r' => by
    have ih := takeWhile_extend p hrest r'
    by_cases hc : p c = true
    · rw [List.cons_append, List.takeWhile_cons, List.takeWhile_cons, hc]
      simp only [if_true]
      refine ⟨by rw [ih.1], ?_⟩
      rw [List.dropWhile_cons, List.dropWhile_cons, hc]
      simp only [if_true]
      exact ih.2
    · rw [List.cons_append, List.takeWhile_cons, List.takeWhile_cons,
        List.dropWhile_cons, List.dropWhile_cons]
      simp [hc]

theorem lexExpPart_extend {lex out : Str} {isF b : Bool} {s : Str}
    (hres : lexExpPart lex isF s = some (out, b, []))
    {rest : Str} (hrest : followOk rest = true) :
    lexExpPart lex isF (s ++ rest) = some (out, b, rest) := by
  have hrest' : ∀ c t, rest = c :: t → isDigitChar c = false :=
    fun c t he => (followOk_head hrest c t he).1
  cases s with
  | nil =>
    have step : lexExpPart lex isF [] = some (lex, isF, []) := rfl
    rw [step] at hres
    injection hres with h1
    injection h1 with h2 h3
    injection h3 with h4 h5
    subst h2 h4
    rw [List.nil_append, lexExpPart_follow _ _ hrest]
  | cons e r =>
    by_cases he : (e = 'e' || e = 'E') = true
    · cases r with
      | nil =>
        exfalso
        have step : lexExpPart lex isF [e] = some (lex, isF, [e]) := by
          simp only [lexExpPart, he, if_true]
        rw [step] at hres
        simp at hres
      | cons sg r1 =>
        by_cases hsg : (sg = '+' || sg = '-') = true
        · rcases htw : List.takeWhile isDigitChar r1 with _ | ⟨d0, ds'⟩
          · exfalso
            have step : lexExpPart lex isF (e :: sg :: r1) = some (lex, isF, e :: sg :: r1) := by
              simp only [lexExpPart, he, if_true, hsg, List.span_eq_take_drop, htw]
            rw [step] at hres
            simp at hres
          · have step : lexExpPart lex isF (e :: sg :: r1) =
                some (lex ++ e :: sg :: (d0 :: ds'), true, List.dropWhile isDigitChar r1) := by
              simp only [lexExpPart, he, if_true, hsg, List.span_eq_take_drop, htw]
            rw [step] at hres
            injection hres with h1
            injection h1 with h2 h3
            injection h3 with h4 h5
            have hr1 : r1 = d0 :: ds' := by
              have := List.takeWhile_append_dropWhile isDigitChar r1
              rw [htw, h5] at this
              simpa using this.symm
            have hext := takeWhile_extend isDigitChar hrest' r1
            have htw2 : List.takeWhile isDigitChar (r1 ++ rest) = d0 :: ds' := by
              rw [hext.1, htw]
            have hdw2 : List.dropWhile isDigitChar (r1 ++ rest) = rest := by
              rw [hext.2]
              simp [h5]
            have hshape : ((e :: sg :: r1) ++ rest : Str) = e :: sg :: (r1 ++ rest) := rfl
            rw [hshape]
            have step2 : lexExpPart lex isF (e :: sg :: (r1 ++ rest)) =
                some (lex ++ e :: sg :: (d0 :: ds'), true, rest) := by
              simp only [lexExpPart, he, if_true, hsg, List.span_eq_take_drop, htw2, hdw2]
            rw [step2, ← h2, ← h4]
        · rcases htw : List.takeWhile isDigitChar (sg :: r1) with _ | ⟨d0, ds'⟩
          · exfalso
            have step : lexExpPart lex isF (e :: sg :: r1) = some (lex, isF, e :: sg :: r1) := by
              simp only [lexExpPart, he, if_true, hsg, List.span_eq_take_drop, htw]
              simp
            rw [step] at hres
            simp at hres
          · have step : lexExpPart lex isF (e :: sg :: r1) =
                some (lex ++ e :: (d0 :: ds'), true, List.dropWhile isDigitChar (sg :: r1)) := by
              simp only [lexExpPart, he, if_true, hsg, List.span_eq_take_drop, htw]
              simp
            rw [step] at hres
            injection hres with h1
            injection h1 with h2 h3
            injection h3 with h4 h5
            have hext := takeWhile_extend isDigitChar hrest' (sg :: r1)
            have htw2 : List.takeWhile isDigitChar ((sg :: r1) ++ rest) = d0 :: ds' := by
              rw [hext.1, htw]
            have hdw2 : List.dropWhile isDigitChar ((sg :: r1) ++ rest) = rest := by
              rw [hext.2, ← h5]
              simp
            have hshape : ((e :: sg :: r1) ++ rest : Str) = e :: ((sg :: r1) ++ rest) := rfl
            rw [hshape]
            have step2 : lexExpPart lex isF (e :: ((sg :: r1) ++ rest)) =
                some (lex ++ e :: (d0 :: ds'), true, rest) := by
              cases hsr : (sg :: r1) ++ rest with
              | nil => simp at hsr
              | cons w ws =>
                have hw : w = sg := by
                  have h6 : sg :: (r1 ++ rest) = w :: ws := hsr
                  injection h6 with hww _
                  exact hww.symm
                subst hw
                simp only [lexExpPart, he, if_true, hsg, List.span_eq_take_drop, ← hsr, htw2, hdw2]
                simp
            rw [step2, ← h2, ← h4]
    · exfalso
      have step : lexExpPart lex isF (e :: r) = some (lex, isF, e :: r) := by
        simp only [lexExpPart, he]
        simp
      rw [step] at hres
      simp at hres

theorem lexFracPart_extend {lex out : Str} {b : Bool} {s : Str}
    (hres : lexFracPart lex s = some (out, b, []))
    {rest : Str} (hrest : followOk rest = true) :
    lexFracPart lex (s ++ rest) = some (out, b, rest) := by
  have hrest' : ∀ c t, rest = c :: t → isDigitChar c = false :=
    fun c t he => (followOk_head hrest c t he).1
  cases s with
  | nil =>
    have step : lexFracPart lex [] = some (lex, false, []) := rfl
    rw [step] at hres
    injection hres with h1
    injection h1 with h2 h3
    injection h3 with h4 h5
    subst h2 h4
    rw [List.nil_append, lexFracPart_follow _ hrest]
  | cons c r =>
    by_cases hc : c = '.'
    · subst hc
      have hext := takeWhile_extend isDigitChar hrest' r
      rcases htw : List.takeWhile isDigitChar r with _ | ⟨d0, ds'⟩
      · have step : lexFracPart lex ('.' :: r) = lexExpPart lex false ('.' :: r) := by
          simp only [lexFracPart, if_pos rfl, List.span_eq_take_drop, htw]
          simp
        rw [step] at hres
        have htw2 : List.takeWhile isDigitChar (r ++ rest) = [] := by rw [hext.1, htw]
        have hshape : (('.' :: r) ++ rest : Str) = '.' :: (r ++ rest) := rfl
        rw [hshape]
        have step2 : lexFracPart lex ('.' :: (r ++ rest)) =
            lexExpPart lex false ('.' :: (r ++ rest)) := by
          simp only [lexFracPart, if_pos rfl, List.span_eq_take_drop, htw2]
          simp
        rw [step2, ← hshape]
        exact lexExpPart_extend hres hrest
      · have step : lexFracPart lex ('.' :: r) =
            lexExpPart (lex ++ '.' :: (d0 :: ds')) true (List.dropWhile isDigitChar r) := by
          simp only [lexFracPart, if_pos rfl, List.span_eq_take_drop, htw]
          simp
        rw [step] at hres
        have htw2 : List.takeWhile isDigitChar (r ++ rest) = d0 :: ds' := by
          rw [hext.1, htw]
        have hshape : (('.' :: r) ++ rest : Str) = '.' :: (r ++ rest) := rfl
        rw [hshape]
        rcases hdw : List.dropWhile isDigitChar r with _ | ⟨w, ws⟩
        · rw [hdw] at hres
          have hval : lexExpPart (lex ++ '.' :: (d0 :: ds')) true [] =
              some (lex ++ '.' :: (d0 :: ds'), true, []) := rfl
          rw [hval] at hres
          injection hres with h1
          injection h1 with h2 h3
          injection h3 with h4 h5
          have hdw2 : List.dropWhile isDigitChar (r ++ rest) = rest := by
            rw [hext.2]
            simp [hdw]
          have step2 : lexFracPart lex ('.' :: (r ++ rest)) =
              lexExpPart (lex ++ '.' :: (d0 :: ds')) true rest := by
            simp only [lexFracPart, if_pos rfl, List.span_eq_take_drop, htw2, hdw2]
            simp
          rw [step2, lexExpPart_follow _ _ hrest, ← h2, ← h4]
        · rw [hdw] at hres
          have hdw2 : List.dropWhile isDigitChar (r ++ rest) = (w :: ws) ++ rest := by
            rw [hext.2]
            simp [hdw]
          have step2 : lexFracPart lex ('.' :: (r ++ rest)) =
              lexExpPart (lex ++ '.' :: (d0 :: ds')) true ((w :: ws) ++ rest) := by
            simp only [lexFracPart, if_pos rfl, List.span_eq_take_drop, htw2, hdw2]
            simp
          rw [step2]
          exact lexExpPart_extend hres hrest
    · have step : lexFracPart lex (c :: r) = lexExpPart lex false (c :: r) := by
        simp only [lexFracPart, if_neg hc]
      rw [step] at hres
      have hshape : ((c :: r) ++ rest : Str) = c :: (r ++ rest) := rfl
      rw [hshape]
      have step2 : lexFracPart lex (c :: (r ++ rest)) = lexExpPart lex false (c :: (r ++ rest)) := by
        simp only [lexFracPart, if_neg hc]
      rw [step2, ← hshape]
      exact lexExpPart_extend hres hrest

theorem lexUIntPart_extend {sgn out : Str} {b : Bool} {s : Str}
    (hres : lexUIntPart sgn s = some (out, b, []))
    {rest : Str} (hrest : followOk rest = true) :
    lexUIntPart sgn (s ++ rest) = some (out, b, rest) := by
  have hrest' : ∀ c t, rest = c :: t → isDigitChar c = false :=
    fun c t he => (followOk_head hrest c t he).1
  cases s with
  | nil => exact absurd hres (by simp [lexUIntPart])
  | cons c r =>
    by_cases hc : c = '0'
    · subst hc
      have step : lexUIntPart sgn ('0' :: r) = lexFracPart (sgn ++ ['0']) r := rfl
      rw [step] at hres
      have step2 : lexUIntPart sgn (('0' :: r) ++ rest) = lexFracPart (sgn ++ ['0']) (r ++ rest) := rfl
      rw [step2]
      exact lexFracPart_extend hres hrest
    · by_cases hd : isDigitChar c = true
      · have hext := takeWhile_extend isDigitChar hrest' r
        have step : lexUIntPart sgn (c :: r) =
            lexFracPart (sgn ++ c :: List.takeWhile isDigitChar r)
              (List.dropWhile isDigitChar r) := by
          simp only [lexUIntPart, if_neg hc, hd, if_true, List.span_eq_take_drop]
        rw [step] at hres
        have hshape : ((c :: r) ++ rest : Str) = c :: (r ++ rest) := rfl
        rw [hshape]
        rcases hdw : List.dropWhile isDigitChar r with _ | ⟨w, ws⟩
        · rw [hdw] at hres
          have hval : lexFracPart (sgn ++ c :: List.takeWhile isDigitChar r) [] =
              some (sgn ++ c :: List.takeWhile isDigitChar r, false, []) := rfl
          rw [hval] at hres
          injection hres with h1
          injection h1 with h2 h3
          injection h3 with h4 h5
          have hdw2 : List.dropWhile isDigitChar (r ++ rest) = rest := by
            rw [hext.2]
            simp [hdw]
          have step2 : lexUIntPart sgn (c :: (r ++ rest)) =
              lexFracPart (sgn ++ c :: List.takeWhile isDigitChar r) rest := by
            simp only [lexUIntPart, if_neg hc, hd, if_true, List.span_eq_take_drop, hext.1, hdw2]
          rw [step2, lexFracPart_follow _ hrest, ← h2, ← h4]
        · rw [hdw] at hres
          have hdw2 : List.dropWhile isDigitChar (r ++ rest) = (w :: ws) ++ rest := by
            rw [hext.2]
            simp [hdw]
          have step2 : lexUIntPart sgn (c :: (r ++ rest)) =
              lexFracPart (sgn ++ c :: List.takeWhile isDigitChar r) ((w :: ws) ++ rest) := by
            simp only [lexUIntPart, if_neg hc, hd, if_true, List.span_eq_take_drop, hext.1, hdw2]
          rw [step2]
          exact lexFracPart_extend hres hrest
      · exact absurd hres (by simp [lexUIntPart, hc, hd])

theorem lexNumber_extend {out : Str} {b : Bool} {s : Str}
    (hres : lexNumber s = some (out, b, []))
    {rest : Str} (hrest : followOk rest = true) :
    lexNumber (s ++ rest) = some (out, b, rest) := by
  cases s with
  | nil => exact absurd hres (by simp [lexNumber, lexUIntPart])
  | cons c s1 =>
    by_cases hc : c = '-'
    · subst hc
      have step : lexNumber ('-' :: s1) = lexUIntPart ['-'] s1 := rfl
      rw [step] at hres
      have step2 : lexNumber (('-' :: s1) ++ rest) = lexUIntPart ['-'] (s1 ++ rest) := rfl
      rw [step2]
      exact lexUIntPart_extend hres hrest
    · have step : lexNumber (c :: s1) = lexUIntPart [] (c :: s1) := by
        simp only [lexNumber, if_neg hc]
      rw [step] at hres
      have hshape : ((c :: s1) ++ rest : Str) = c :: (s1 ++ rest) := rfl
      rw [hshape]
      have step2 : lexNumber (c :: (s1 ++ rest)) = lexUIntPart [] (c :: (s1 ++ rest)) := by
        simp only [lexNumber, if_neg hc]
      rw [step2, ← hshape]
      exact lexUIntPart_extend hres hrest

theorem wfFloatLex_spec {lex : Str} (h : wfFloatLex lex = true) :
    lexNumber lex = some (lex, true, []) := by
  unfold wfFloatLex at h
  rcases hl : lexNumber lex with _ | ⟨l, b, r⟩
  · rw [hl] at h
    simp at h
  · rw [hl] at h
    cases b
    · simp at h
    · cases r with
      | nil =>
        have hle : l = lex := by simpa using h
        rw [hle]
      | cons w ws => simp at h

theorem wfFloatLex_head {lex : Str} (h : wfFloatLex lex = true) :
    ∃ c t, lex = c :: t ∧ (c = '-' ∨ isDigitChar c = true) ∧
      (c = '-' → ∃ c2 r, t = c2 :: r ∧ isDigitChar c2 = true) := by
  have hs := wfFloatLex_spec h
  cases lex with
  | nil => exact absurd hs (by simp [lexNumber, lexUIntPart])
  | cons c t =>
    by_cases hc : c = '-'
    · subst hc
      refine ⟨'-', t, rfl, Or.inl rfl, fun _ => ?_⟩
      have step : lexNumber ('-' :: t) = lexUIntPart ['-'] t := rfl
      rw [step] at hs
      cases t with
      | nil => exact absurd hs (by simp [lexUIntPart])
      | cons c2 r =>
        refine ⟨c2, r, rfl, ?_⟩
        by_cases hc2 : c2 = '0'
        · subst hc2; decide
        · by_cases hd2 : isDigitChar c2 = true
          · exact hd2
          · exact absurd hs (by simp [lexUIntPart, hc2, hd2])
    · refine ⟨c, t, rfl, Or.inr ?_, fun hm => absurd hm hc⟩
      have step : lexNumber (c :: t) = lexUIntPart [] (c :: t) := by
        simp only [lexNumber, if_neg hc]
      rw [step] at hs
      by_cases hc0 : c = '0'
      · subst hc0; decide
      · by_cases hd : isDigitChar c = true
        · exact hd
        · exact absurd hs (by simp [lexUIntPart, hc0, hd])

theorem parseValue_fnumDumps (fuel : Nat) {lex : Str} (hwf : wfFloatLex lex = true)
    {rest : Str} (h : followOk rest = true) :
    parseValue (fuel + 1) (lex ++ rest) = some (.fnum lex, rest) := by
  have hext : lexNumber (lex ++ rest) = some (lex, true, rest) :=
    lexNumber_extend (wfFloatLex_spec hwf) h
  rcases wfFloatLex_head hwf with ⟨c, t, rfl, hcd, hminus⟩
  rcases hcd with rfl | hd
  · rcases hminus rfl with ⟨c2, r, rfl, hd2⟩
    have hshape : (('-' :: c2 :: r) ++ rest : Str) = '-' :: c2 :: (r ++ rest) := rfl
    rw [hshape]
    have hskip : skipWs ('-' :: c2 :: (r ++ rest)) = '-' :: c2 :: (r ++ rest) := by
      rw [skipWs_cons_neg _ (by decide)]
    simp only [parseValue, hskip]
    rw [if_neg (by decide : ¬('-' = '\x7b')), if_neg (by decide : ¬('-' = '[')),
      if_neg (by decide : ¬('-' = '"')), if_neg (by decide : ¬('-' = 'n')),
      if_neg (by decide : ¬('-' = 't')), if_neg (by decide : ¬('-' = 'f')),
      if_neg (by decide : ¬('-' = 'N')), if_neg (by decide : ¬('-' = 'I'))]
    simp only [if_true]
    rw [if_neg (digit_ne hd2 'I' (by decide))]
    rw [← hshape, hext]
    rfl
  · have hshape : ((c :: t) ++ rest : Str) = c :: (t ++ rest) := rfl
    rw [hshape, digit_dispatch hd, ← hshape, hext]
    rfl

/-! ### Leaf value parses and head dispatch -/

theorem parseValue_nullLit (fuel : Nat) (rest : Str) :
    parseValue (fuel + 1) ((['n', 'u', 'l', 'l'] : Str) ++ rest) = some (.null, rest) := by
  have hshape : (['n', 'u', 'l', 'l'] : Str) ++ rest = 'n' :: ((['u', 'l', 'l'] : Str) ++ rest) := rfl
  have step : parseValue (fuel + 1) ('n' :: ((['u', 'l', 'l'] : Str) ++ rest)) =
      expectLit ['u', 'l', 'l'] (['u', 'l', 'l'] ++ rest) .null := rfl
  rw [hshape, step, expectLit_exact]

theorem parseValue_trueLit (fuel : Nat) (rest : Str) :
    parseValue (fuel + 1) ((['t', 'r', 'u', 'e'] : Str) ++ rest) = some (.bool true, rest) := by
  have hshape : (['t', 'r', 'u', 'e'] : Str) ++ rest = 't' :: ((['r', 'u', 'e'] : Str) ++ rest) := rfl
  have step : parseValue (fuel + 1) ('t' :: ((['r', 'u', 'e'] : Str) ++ rest)) =
      expectLit ['r', 'u', 'e'] (['r', 'u', 'e'] ++ rest) (.bool true) := rfl
  rw [hshape, step, expectLit_exact]

theorem parseValue_falseLit (fuel : Nat) (rest : Str) :
    parseValue (fuel + 1) ((['f', 'a', 'l', 's', 'e'] : Str) ++ rest) =
      some (.bool false, rest) := by
  have hshape : (['f', 'a', 'l', 's', 'e'] : Str) ++ rest =
      'f' :: ((['a', 'l', 's', 'e'] : Str) ++ rest) := rfl
  have step : parseValue (fuel + 1) ('f' :: ((['a', 'l', 's', 'e'] : Str) ++ rest)) =
      expectLit ['a', 'l', 's', 'e'] (['a', 'l', 's', 'e'] ++ rest) (.bool false) := rfl
  rw [hshape, step, expectLit_exact]

theorem parseValue_strDumps (fuel : Nat) (s rest : Str) :
    parseValue (fuel + 1) (strDumps s ++ rest) = some (.str s, rest) := by
  have hshape : strDumps s ++ rest = '"' :: (strDumpsBody s ++ ('"' :: rest)) := by
    simp [strDumps]
  rw [hshape]
  have step : parseValue (fuel + 1) ('"' :: (strDumpsBody s ++ ('"' :: rest))) =
      match parseStringBody (strDumpsBody s ++ ('"' :: rest)) with
      | some (cs, r) => some (.str cs, r)
      | none => none := rfl
  rw [step, parseStringBody_dumps]

theorem parseValue_arrNil (fuel : Nat) (rest : Str) :
    parseValue (fuel + 1) ((['[', ']'] : Str) ++ rest) = some (.arr .nil, rest) := rfl

theorem parseValue_objNil (fuel : Nat) (rest : Str) :
    parseValue (fuel + 1) ((['\x7b', '\x7d'] : Str) ++ rest) = some (.obj .nil, rest) := rfl

theorem dumps_head (o : Json) (hwf : o.wf = true) :
    ∃ c t, o.dumps = c :: t ∧ isJsonWs c = false ∧ ¬(c = ']') ∧ ¬(c = ',') ∧
      ¬(c = '\x7d') ∧ ¬(c = ':') := by
  cases o with
  | null => exact ⟨'n', ['u', 'l', 'l'], rfl, by decide, by decide, by decide, by decide, by decide⟩
  | bool b =>
    cases b
    · exact ⟨'f', ['a', 'l', 's', 'e'], rfl, by decide, by decide, by decide, by decide, by decide⟩
    · exact ⟨'t', ['r', 'u', 'e'], rfl, by decide, by decide, by decide, by decide, by decide⟩
  | int n =>
    by_cases hneg : n < 0
    · refine ⟨'-', natDumps (-n).toNat, ?_, by decide, by decide, by decide, by decide, by decide⟩
      rw [show Json.dumps (.int n) = intDumps n from rfl, intDumps_neg n hneg]
    · rcases natDumps_head n.toNat with ⟨c, t, hct, hd, _⟩
      refine ⟨c, t, ?_, ws_not_digit hd, digit_ne hd ']' (by decide), digit_ne hd ',' (by decide),
        digit_ne hd '\x7d' (by decide), digit_ne hd ':' (by decide)⟩
      rw [show Json.dumps (.int n) = intDumps n from rfl, intDumps_nonneg n hneg, hct]
  | fnum lex =>
    have hwf' : wfFloatLex lex = true := by simpa [Json.wf] using hwf
    rcases wfFloatLex_head hwf' with ⟨c, t, hct, hcd, _⟩
    rcases hcd with rfl | hd
    · exact ⟨'-', t, hct, by decide, by decide, by decide, by decide, by decide⟩
    · exact ⟨c, t, hct, ws_not_digit hd, digit_ne hd ']' (by decide), digit_ne hd ',' (by decide),
        digit_ne hd '\x7d' (by decide), digit_ne hd ':' (by decide)⟩
  | nan => simp [Json.wf] at hwf
  | inf => simp [Json.wf] at hwf
  | ninf => simp [Json.wf] at hwf
  | str s =>
    exact ⟨'"', strDumpsBody s ++ ['"'], rfl, by decide, by decide, by decide, by decide, by decide⟩
  | arr a =>
    cases a
    · exact ⟨'[', [']'], rfl, by decide, by decide, by decide, by decide, by decide⟩
    · exact ⟨'[', _, rfl, by decide, by decide, by decide, by decide, by decide⟩
  | obj kvs =>
    cases kvs
    · exact ⟨'\x7b', ['\x7d'], rfl, by decide, by decide, by decide, by decide, by decide⟩
    · exact ⟨'\x7b', _, rfl, by decide, by decide, by decide, by decide, by decide⟩

theorem followOk_arrTail (vs : JArr) (rest : Str) : followOk (vs.dumpsTail ++ rest) = true := by
  cases vs <;> rfl

theorem followOk_objTail (kvs : JObj) (rest : Str) : followOk (kvs.dumpsTail ++ rest) = true := by
  cases kvs <;> rfl

/-! ### `dict(pairs)` is the identity on duplicate-free member sequences -/

theorem JObj.append_nil : ∀ (a : JObj), a.append .nil = a
  | .nil => rfl
  | .cons k v tl => by
    simp only [JObj.append]
    rw [JObj.append_nil tl]

theorem hasKey_append : ∀ (a : JObj) (b : JObj) (k : Str),
    (a.append b).hasKey k = (a.hasKey k || b.hasKey k)
  | .nil, b, k => rfl
  | .cons k' v' tl, b, k => by
    simp only [JObj.append, JObj.hasKey]
    rw [hasKey_append tl b k, Bool.or_assoc]

theorem setKey_not_has : ∀ (acc : JObj) (k : Str) (v : Json), acc.hasKey k = false →
    acc.setKey k v = acc.append (.cons k v .nil)
  | .nil, k, v, _ => rfl
  | .cons k' v' tl, k, v, h => by
    simp only [JObj.hasKey, Bool.or_eq_false_iff, decide_eq_false_iff_not] at h
    simp only [JObj.setKey, if_neg h.1, JObj.append]
    rw [setKey_not_has tl k v h.2]

theorem append_cons_assoc : ∀ (a : JObj) (k : Str) (v : Json) (b : JObj),
    (a.append (.cons k v .nil)).append b = a.append (.cons k v b)
  | .nil, k, v, b => rfl
  | .cons k' v' tl, k, v, b => by
    simp only [JObj.append]
    rw [append_cons_assoc tl k v b]

theorem mkObjAux_no_overlap :
    ∀ (kvs acc : JObj), kvs.wf = true → (∀ k, kvs.hasKey k = true → acc.hasKey k = false) →
      mkObjAux acc kvs = acc.append kvs
  | .nil, acc, _, _ => by
    simp [mkObjAux, JObj.append_nil]
  | .cons k v tl, acc, hwf, hdisj => by
    simp only [mkObjAux]
    have hk : acc.hasKey k = false := hdisj k (by simp [JObj.hasKey])
    rw [setKey_not_has acc k v hk]
    have hwfs : tl.hasKey k = false ∧ v.wf = true ∧ tl.wf = true := by
      simp only [JObj.wf, Bool.and_eq_true, Bool.not_eq_true'] at hwf
      tauto
    have hdisj' : ∀ k', tl.hasKey k' = true → (acc.append (.cons k v .nil)).hasKey k' = false := by
      intro k' hk'
      rw [hasKey_append]
      have h1 : acc.hasKey k' = false := hdisj k' (by simp [JObj.hasKey, hk'])
      have h2 : ¬(k = k') := by
        intro he
        rw [he] at hwfs
        rw [hwfs.1] at hk'
        exact absurd hk' (by simp)
      simp [JObj.hasKey, h1, h2]
    rw [mkObjAux_no_overlap tl _ hwfs.2.2 hdisj', append_cons_assoc]

theorem mkObj_wf (kvs : JObj) (h : kvs.wf = true) : mkObj kvs = kvs := by
  rw [mkObj, mkObjAux_no_overlap kvs .nil h (fun _ _ => rfl)]
  rfl

/-! ### Fuel bounds -/

theorem needFuel_pos (o : Json) : 1 ≤ o.needFuel := by
  cases o with
  | arr a => cases a <;> simp [Json.needFuel]
  | obj kvs => cases kvs <;> simp [Json.needFuel]
  | _ => simp [Json.needFuel]

theorem needFuelTail_pos (vs : JArr) : 1 ≤ vs.needFuelTail := by
  cases vs <;> simp [JArr.needFuelTail]

mutual

theorem Json.needFuel_le : ∀ (o : Json), o.wf = true → o.needFuel ≤ o.dumps.length
  | .null, _ => by simp [Json.needFuel, Json.dumps]
  | .bool b, _ => by cases b <;> simp [Json.needFuel, Json.dumps]
  | .int n, _ => by
    rcases dumps_head (.int n) (by simp [Json.wf]) with ⟨c, t, hct, _⟩
    simp [Json.needFuel, hct]
  | .fnum lex, h => by
    rcases dumps_head (.fnum lex) h with ⟨c, t, hct, _⟩
    simp [Json.needFuel, hct]
  | .nan, h => by simp [Json.wf] at h
  | .inf, h => by simp [Json.wf] at h
  | .ninf, h => by simp [Json.wf] at h
  | .str s, _ => by simp [Json.needFuel, Json.dumps, strDumps]
  | .arr .nil, _ => by simp [Json.needFuel, Json.dumps]
  | .arr (.cons v vs), h => by
    have hw : v.wf = true ∧ vs.wf = true := by
      simp only [Json.wf, JArr.wf, Bool.and_eq_true] at h
      exact h
    have h1 := Json.needFuel_le v hw.1
    have h2 := JArr.needFuelTail_le vs hw.2
    simp only [Json.needFuel, Json.dumps, List.length_cons, List.length_append]
    have hmax : max v.needFuel vs.needFuelTail ≤ v.dumps.length + vs.dumpsTail.length :=
      Nat.max_le.mpr ⟨Nat.le_trans h1 (Nat.le_add_right _ _),
        Nat.le_trans h2 (Nat.le_add_left _ _)⟩
    omega
  | .obj .nil, _ => by simp [Json.needFuel, Json.dumps]
  | .obj (.cons k v tl), h => by
    have h2 := JObj.needFuelMembers_le (.cons k v tl) (by simpa [Json.wf] using h)
    simp only [Json.needFuel, Json.dumps, List.length_cons]
    simp only [JObj.dumpsTail, List.length_cons] at h2
    have hlen : (strDumps k ++ ':' :: (v.dumps ++ tl.dumpsTail)).length =
        (strDumps k).length + 1 + (v.dumps.length + tl.dumpsTail.length) := by
      simp [List.length_append]
      omega
    omega

theorem JArr.needFuelTail_le : ∀ (vs : JArr), vs.wf = true →
    vs.needFuelTail ≤ vs.dumpsTail.length
  | .nil, _ => by simp [JArr.needFuelTail, JArr.dumpsTail]
  | .cons v vs, h => by
    have hw : v.wf = true ∧ vs.wf = true := by
      simp only [JArr.wf, Bool.and_eq_true] at h
      exact h
    have h1 := Json.needFuel_le v hw.1
    have h2 := JArr.needFuelTail_le vs hw.2
    simp only [JArr.needFuelTail, JArr.dumpsTail, List.length_cons, List.length_append]
    have hmax : max v.needFuel vs.needFuelTail ≤ v.dumps.length + vs.dumpsTail.length :=
      Nat.max_le.mpr ⟨Nat.le_trans h1 (Nat.le_add_right _ _),
        Nat.le_trans h2 (Nat.le_add_left _ _)⟩
    omega

theorem JObj.needFuelMembers_le : ∀ (kvs : JObj), kvs.wf = true →
    kvs.needFuelMembers + 1 ≤ kvs.dumpsTail.length
  | .nil, _ => by simp [JObj.needFuelMembers, JObj.dumpsTail]
  | .cons k v tl, h => by
    have hw : v.wf = true ∧ tl.wf = true := by
      simp only [JObj.wf, Bool.and_eq_true] at h
      tauto
    have h1 := Json.needFuel_le v hw.1
    have h2 := JObj.needFuelMembers_le tl hw.2
    simp only [JObj.needFuelMembers, JObj.dumpsTail, List.length_cons, List.length_append,
      strDumps]
    have hmax : max v.needFuel tl.needFuelMembers ≤ v.dumps.length + tl.dumpsTail.length := by
      refine Nat.max_le.mpr ⟨Nat.le_trans h1 (Nat.le_add_right _ _), ?_⟩
      omega
    omega

end

/-! ### The parser inverts the serialiser (main fuel induction) -/

theorem parse_roundtrip : ∀ (fuel : Nat),
    (∀ (o : Json) (rest : Str), o.needFuel ≤ fuel → o.wf = true → followOk rest = true →
      parseValue fuel (o.dumps ++ rest) = some (o, rest)) ∧
    (∀ (vs : JArr) (rest : Str), vs.needFuelTail ≤ fuel → vs.wf = true →
      parseElems fuel (vs.dumpsTail ++ rest) = some (vs, rest)) ∧
    (∀ (k : Str) (v : Json) (tl : JObj) (rest : Str),
      (JObj.cons k v tl).needFuelMembers ≤ fuel → (JObj.cons k v tl).wf = true →
      parseMembers fuel (memberDumps k v tl ++ rest) = some (.cons k v tl, rest)) := by
  intro fuel
  induction fuel with
  | zero =>
    refine ⟨?_, ?_, ?_⟩
    · intro o rest hf _ _
      exact absurd hf (by have := needFuel_pos o; omega)
    · intro vs rest hf _
      exact absurd hf (by have := needFuelTail_pos vs; omega)
    · intro k v tl rest hf _
      refine absurd hf ?_
      simp only [JObj.needFuelMembers]
      omega
  | succ fuel ih =>
    obtain ⟨ihV, ihE, ihM⟩ := ih
    refine ⟨?_, ?_, ?_⟩
    · intro o rest hf hwf hfo
      cases o with
      | null =>
        rw [show Json.dumps .null = (['n', 'u', 'l', 'l'] : Str) from rfl]
        exact parseValue_nullLit fuel rest
      | bool b =>
        cases b
        · rw [show Json.dumps (.bool false) = (['f', 'a', 'l', 's', 'e'] : Str) from rfl]
          exact parseValue_falseLit fuel rest
        · rw [show Json.dumps (.bool true) = (['t', 'r', 'u', 'e'] : Str) from rfl]
          exact parseValue_trueLit fuel rest
      | int n =>
        rw [show Json.dumps (.int n) = intDumps n from rfl]
        exact parseValue_intDumps fuel n hfo
      | fnum lex =>
        rw [show Json.dumps (.fnum lex) = lex from rfl]
        exact parseValue_fnumDumps fuel (by simpa [Json.wf] using hwf) hfo
      | nan => simp [Json.wf] at hwf
      | inf => simp [Json.wf] at hwf
      | ninf => simp [Json.wf] at hwf
      | str s =>
        rw [show Json.dumps (.str s) = strDumps s from rfl]
        exact parseValue_strDumps fuel s rest
      | arr a =>
        cases a with
        | nil =>
          rw [show Json.dumps (.arr .nil) = (['[', ']'] : Str) from rfl]
          exact parseValue_arrNil fuel rest
        | cons v vs =>
          have hw : v.wf = true ∧ vs.wf = true := by
            simp only [Json.wf, JArr.wf, Bool.and_eq_true] at hwf
            exact hwf
          have hfv : v.needFuel ≤ fuel ∧ vs.needFuelTail ≤ fuel := by
            simp only [Json.needFuel] at hf
            constructor <;> omega
          rcases dumps_head v hw.1 with ⟨c, t, hct, hws, hnrb, _, _, _⟩
          rw [show Json.dumps (.arr (.cons v vs)) = '[' :: (v.dumps ++ vs.dumpsTail) from rfl]
          rw [show ('[' :: (v.dumps ++ vs.dumpsTail)) ++ rest =
            '[' :: (v.dumps ++ (vs.dumpsTail ++ rest)) by simp]
          rw [hct]
          simp only [List.cons_append]
          have step : parseValue (fuel + 1) ('[' :: (c :: (t ++ (vs.dumpsTail ++ rest)))) =
              (match skipWs (c :: (t ++ (vs.dumpsTail ++ rest))) with
               | [] => none
               | c2 :: r2 =>
                 if c2 = ']' then some (.arr .nil, r2)
                 else
                   match parseValue fuel (c2 :: r2) with
                   | some (v', r) =>
                     match parseElems fuel r with
                     | some (vs', r') => some (.arr (.cons v' vs'), r')
                     | none => none
                   | none => none) := rfl
          rw [step, skipWs_cons_neg _ hws]
          dsimp only
          rw [if_neg hnrb]
          rw [show (c :: (t ++ (vs.dumpsTail ++ rest))) = v.dumps ++ (vs.dumpsTail ++ rest) by
            rw [hct]; simp]
          rw [ihV v (vs.dumpsTail ++ rest) hfv.1 hw.1 (followOk_arrTail vs rest)]
          dsimp only
          rw [ihE vs rest hfv.2 hw.2]
      | obj kvs =>
        cases kvs with
        | nil =>
          rw [show Json.dumps (.obj .nil) = (['\x7b', '\x7d'] : Str) from rfl]
          exact parseValue_objNil fuel rest
        | cons k v tl =>
          have hfm : (JObj.cons k v tl).needFuelMembers ≤ fuel := by
            simp only [Json.needFuel] at hf
            omega
          have hwm : (JObj.cons k v tl).wf = true := by simpa [Json.wf] using hwf
          rw [show Json.dumps (.obj (.cons k v tl)) =
            '\x7b' :: (strDumps k ++ ':' :: (v.dumps ++ tl.dumpsTail)) from rfl]
          rw [show ('\x7b' :: (strDumps k ++ ':' :: (v.dumps ++ tl.dumpsTail))) ++ rest =
            '\x7b' :: ('"' :: ((strDumpsBody k ++ ['"']) ++
              (':' :: (v.dumps ++ tl.dumpsTail) ++ rest))) by simp [strDumps]]
          have step : parseValue (fuel + 1) ('\x7b' :: ('"' :: ((strDumpsBody k ++ ['"']) ++
              (':' :: (v.dumps ++ tl.dumpsTail) ++ rest)))) =
              (match parseMembers fuel ('"' :: ((strDumpsBody k ++ ['"']) ++
                  (':' :: (v.dumps ++ tl.dumpsTail) ++ rest))) with
               | some (kvs', r) => some (.obj (mkObj kvs'), r)
               | none => none) := rfl
          rw [step]
          have hmem : ('"' :: ((strDumpsBody k ++ ['"']) ++
              (':' :: (v.dumps ++ tl.dumpsTail) ++ rest))) = memberDumps k v tl ++ rest := by
            simp [memberDumps, strDumps]
          rw [hmem, ihM k v tl rest hfm hwm]
          dsimp only
          rw [mkObj_wf _ hwm]
    · intro vs rest hf hwf
      cases vs with
      | nil =>
        rw [show JArr.dumpsTail .nil = ([']'] : Str) from rfl]
        rfl
      | cons v vs' =>
        have hw : v.wf = true ∧ vs'.wf = true := by
          simp only [JArr.wf, Bool.and_eq_true] at hwf
          exact hwf
        have hfv : v.needFuel ≤ fuel ∧ vs'.needFuelTail ≤ fuel := by
          simp only [JArr.needFuelTail] at hf
          constructor <;> omega
        rw [show JArr.dumpsTail (.cons v vs') = ',' :: (v.dumps ++ vs'.dumpsTail) from rfl]
        rw [show (',' :: (v.dumps ++ vs'.dumpsTail)) ++ rest =
          ',' :: (v.dumps ++ (vs'.dumpsTail ++ rest)) by simp]
        have step : parseElems (fuel + 1) (',' :: (v.dumps ++ (vs'.dumpsTail ++ rest))) =
            (match parseValue fuel (v.dumps ++ (vs'.dumpsTail ++ rest)) with
             | some (v', r) =>
               match parseElems fuel r with
               | some (vs'', r') => some (JArr.cons v' vs'', r')
               | none => none
             | none => none) := rfl
        rw [step, ihV v (vs'.dumpsTail ++ rest) hfv.1 hw.1 (followOk_arrTail vs' rest)]
        dsimp only
        rw [ihE vs' rest hfv.2 hw.2]
    · intro k v tl rest hf hwf
      have hw : v.wf = true ∧ tl.wf = true := by
        simp only [JObj.wf, Bool.and_eq_true] at hwf
        tauto
      have hfv : v.needFuel ≤ fuel ∧ tl.needFuelMembers ≤ fuel := by
        simp only [JObj.needFuelMembers] at hf
        constructor <;> omega
      rw [show memberDumps k v tl ++ rest =
        '"' :: (strDumpsBody k ++ ('"' :: (':' :: (v.dumps ++ (tl.dumpsTail ++ rest))))) by
        simp [memberDumps, strDumps]]
      have step : parseMembers (fuel + 1)
          ('"' :: (strDumpsBody k ++ ('"' :: (':' :: (v.dumps ++ (tl.dumpsTail ++ rest)))))) =
          (match parseStringBody (strDumpsBody k ++
              ('"' :: (':' :: (v.dumps ++ (tl.dumpsTail ++ rest))))) with
           | some (k', r1) =>
             match skipWs r1 with
             | [] => none
             | c1 :: r2 =>
               if c1 = ':' then
                 match parseValue fuel r2 with
                 | some (v', r3) =>
                   match skipWs r3 with
                   | [] => none
                   | c3 :: r4 =>
                     if c3 = ',' then
                       match parseMembers fuel (skipWs r4) with
                       | some (kvs', r5) => some (JObj.cons k' v' kvs', r5)
                       | none => none
                     else if c3 = '\x7d' then some (JObj.cons k' v' .nil, r4)
                     else none
                 | none => none
               else none
           | none => none) := rfl
      rw [step, parseStringBody_dumps]
      try dsimp only
      rw [skipWs_cons_neg _ (by decide : isJsonWs ':' = false)]
      try dsimp only
      rw [if_pos (rfl : (':' : Char) = ':')]
      rw [ihV v (tl.dumpsTail ++ rest) hfv.1 hw.1 (followOk_objTail tl rest)]
      try dsimp only
      cases tl with
      | nil =>
        rw [show JObj.dumpsTail .nil ++ rest = '\x7d' :: rest from rfl]
        rw [skipWs_cons_neg _ (by decide : isJsonWs '\x7d' = false)]
        try dsimp only
        rw [if_neg (by decide : ¬(('\x7d' : Char) = ',')),
          if_pos (rfl : ('\x7d' : Char) = '\x7d')]
      | cons k2 v2 tl2 =>
        rw [show JObj.dumpsTail (.cons k2 v2 tl2) ++ rest =
          ',' :: (memberDumps k2 v2 tl2 ++ rest) by simp [JObj.dumpsTail, memberDumps]]
        rw [skipWs_cons_neg _ (by decide : isJsonWs ',' = false)]
        try dsimp only
        rw [if_pos (rfl : (',' : Char) = ',')]
        have hmem2 : memberDumps k2 v2 tl2 ++ rest =
            '"' :: (strDumpsBody k2 ++ ('"' :: (':' :: (v2.dumps ++ (tl2.dumpsTail ++ rest))))) := by
          simp [memberDumps, strDumps]
        rw [hmem2, skipWs_cons_neg _ (by decide : isJsonWs '"' = false), ← hmem2]
        rw [ihM k2 v2 tl2 rest (by
            simp only [JObj.needFuelMembers] at hfv ⊢
            omega)
          hw.2]

/-- On a well-formed value, `json.loads` inverts serialisation: parsing the
standard JSON text of the value recovers exactly that value. -/
theorem json_loads_dumps (o : Json) (hwf : o.wf = true) :
    json_loads o.dumps = some o := by
  have h := (parse_roundtrip (o.dumps.length + 1)).1 o []
    (le_trans (Json.needFuel_le o hwf) (Nat.le_succ _)) hwf rfl
  rw [List.append_nil] at h
  simp [json_loads, h, skipWs]

theorem fence_eq : S "```" = '\x60' :: ['\x60', '\x60'] := by decide

theorem fenceJson_eq : S "```json" = '\x60' :: ['\x60', '\x60', 'j', 's', 'o', 'n'] := by
  decide

/-- If the bare fence does not occur in `t`, neither does the longer
opening fence. -/
theorem not_fenceJson_of_not_fence {t : Str} (h : ¬(S "```" <:+: t)) :
    ¬(S "```json" <:+: t) := fun hj =>
  h (((by decide : (S "```") <+: (S "```json")).isInfix).trans hj)

/-- Every serialised member tail ends with the closing brace. -/
theorem dumpsTail_shape : ∀ (kvs : JObj), ∃ y, kvs.dumpsTail = y ++ ['\x7d']
  | .nil => ⟨[], rfl⟩
  | .cons k v tl => by
    obtain ⟨y, hy⟩ := dumpsTail_shape tl
    refine ⟨',' :: (strDumps k ++ ':' :: (v.dumps ++ y)), ?_⟩
    simp [JObj.dumpsTail, memberDumps, hy]

/-- The serialisation of an object is an opening brace, a middle part and a
closing brace. -/
theorem obj_dumps_shape : ∀ (kvs : JObj),
    ∃ mid, Json.dumps (.obj kvs) = '\x7b' :: (mid ++ ['\x7d'])
  | .nil => ⟨[], rfl⟩
  | .cons k v tl => by
    obtain ⟨y, hy⟩ := dumpsTail_shape tl
    refine ⟨strDumps k ++ ':' :: (v.dumps ++ y), ?_⟩
    simp [Json.dumps, hy]

/-- Stripping the fences of a fenced response whose payload contains no
fence recovers the payload framed by the two newlines. -/
theorem stripFences_wrapped {t : Str} (hf : ¬(S "```" <:+: t)) :
    pyReplace (pyReplace (wrapFence t) (S "```json") []) (S "```") [] =
      '\n' :: (t ++ ['\n']) := by
  have hnotnil : ¬(S "```json" <:+: ([] : Str)) := by decide
  have hc1 : '\n' ∉ S "```json" := by decide
  have hyj : ¬(S "```json" <:+: (S "```" : Str)) := by decide
  have hz : ¬(S "```json" <:+: ('\n' :: (t ++ '\n' :: S "```"))) := by
    have hy : ¬(S "```json" <:+: (t ++ '\n' :: S "```")) :=
      not_infix_append_cons hc1 (not_fenceJson_of_not_fence hf) hyj
    have := not_infix_append_cons (x := []) hc1 hnotnil hy
    simpa using this
  have h1 : pyReplace (wrapFence t) (S "```json") [] =
      '\n' :: (t ++ '\n' :: S "```") := by
    rw [wrapFence, fenceJson_eq]
    rw [fenceJson_eq] at hz
    exact pyReplace_head_match _ _ _ _ hz
  rw [h1]
  have hc2 : '\n' ∉ S "```" := by decide
  have hnotnil2 : ¬(S "```" <:+: ([] : Str)) := by decide
  have hbb : ¬(S "```" <:+: (['\x60', '\x60'] : Str)) := by decide
  have hx : ¬(S "```" <:+: ('\n' :: (t ++ '\n' :: ['\x60', '\x60']))) := by
    have hy : ¬(S "```" <:+: (t ++ '\n' :: ['\x60', '\x60'])) :=
      not_infix_append_cons hc2 hf hbb
    have := not_infix_append_cons (x := []) hc2 hnotnil2 hy
    simpa using this
  have hshape : '\n' :: (t ++ '\n' :: S "```") =
      ('\n' :: (t ++ ['\n'])) ++ ('\x60' :: ['\x60', '\x60']) := by
    rw [fence_eq]
    simp
  rw [hshape, fence_eq]
  have := pyReplace_tail_match '\x60' ['\x60', '\x60'] [] ('\n' :: (t ++ ['\n']))
    (by
      show ¬('\x60' :: ['\x60', '\x60'] <:+: ('\n' :: (t ++ ['\n'])) ++ ['\x60', '\x60'])
      rw [← fence_eq]
      intro hcon
      exact hx (by simpa using hcon))
  rw [this]
  simp

/-- Normalising a fenced payload that starts and ends with a non-space
character and contains no fence is exactly `json.loads` of the payload. -/
theorem normalize_wrapFence {a b : Char} (m : Str) (ha : isPySpace a = false)
    (hb : isPySpace b = false) (hf : ¬(S "```" <:+: (a :: (m ++ [b])))) :
    normalizeResponse (wrapFence (a :: (m ++ [b]))) =
      json_loads (a :: (m ++ [b])) := by
  rw [normalizeResponse, stripFences_wrapped hf, pyStrip_wrapped m ha hb]

/-! ## `strptime` on canonical ISO renderings -/

theorem daysInMonth_le (y m : Nat) : daysInMonth y m ≤ 31 := by
  unfold daysInMonth
  split_ifs <;> omega

theorem matchMonthRe_pad2 : ∀ (m : Nat), 1 ≤ m → m ≤ 12 → ∀ (rest : Str),
    matchMonthRe (pad2 m ++ rest) = some (m, rest) := by
  intro m h1 h2 rest
  interval_cases m <;> rfl

theorem matchDayRe_pad2 : ∀ (d : Nat), 1 ≤ d → d ≤ 31 → ∀ (rest : Str),
    matchDayRe (pad2 d ++ rest) = some (d, rest) := by
  intro d h1 h2 rest
  interval_cases d <;> rfl

theorem strptime_pyStrDate (y m d : Nat) (hy1 : 1 ≤ y) (hy2 : y ≤ 9999)
    (hm1 : 1 ≤ m) (hm2 : m ≤ 12) (hd1 : 1 ≤ d) (hd2 : d ≤ daysInMonth y m) :
    strptimeYmd (pyStrDate ⟨y, m, d⟩) = some ⟨y, m, d⟩ := by
  have hd31 : d ≤ 31 := le_trans hd2 (daysInMonth_le y m)
  have hshape : pyStrDate ⟨y, m, d⟩ =
      digitChar (y / 1000 % 10) :: digitChar (y / 100 % 10) ::
      digitChar (y / 10 % 10) :: digitChar (y % 10) :: '-' ::
      (pad2 m ++ '-' :: pad2 d) := by
    simp [pyStrDate, pad4]
  rw [hshape]
  simp only [strptimeYmd, if_true]
  rw [isDigit_digitChar _ (Nat.mod_lt _ (by norm_num)),
    isDigit_digitChar _ (Nat.mod_lt _ (by norm_num)),
    isDigit_digitChar _ (Nat.mod_lt _ (by norm_num)),
    isDigit_digitChar _ (Nat.mod_lt _ (by norm_num))]
  simp only [Bool.and_self, eq_self_iff_true, if_true]
  rw [matchMonthRe_pad2 m hm1 hm2 ('-' :: pad2 d)]
  try dsimp only
  rw [if_pos (rfl : ('-' : Char) = '-')]
  have hday := matchDayRe_pad2 d hd1 hd31 []
  rw [List.append_nil] at hday
  rw [hday]
  try dsimp only
  rw [dVal_digitChar _ (Nat.mod_lt _ (by norm_num)),
    dVal_digitChar _ (Nat.mod_lt _ (by norm_num)),
    dVal_digitChar _ (Nat.mod_lt _ (by norm_num)),
    dVal_digitChar _ (Nat.mod_lt _ (by norm_num))]
  have hyy : ((y / 1000 % 10 * 10 + y / 100 % 10) * 10 + y / 10 % 10) * 10 + y % 10 = y := by
    omega
  rw [hyy]
  simp [hy1, hd2]

/-! ## Literal-pattern `re.search` is substring search -/

theorem matchHere_lit : ∀ (pat s : Str),
    (matchHere (pat.map RTok.lit) s = true ↔ pat <+: s)
  | [], s => by simp [matchHere]
  | p :: ps, [] => by simp [matchHere]
  | p :: ps, c :: cs => by
    simp only [List.map, matchHere, tokMatches, Bool.and_eq_true, decide_eq_true_eq]
    rw [matchHere_lit ps cs, List.cons_prefix_cons]

theorem reSearchAux_lit : ∀ (pat s : Str),
    (reSearchAux (pat.map RTok.lit) s = true ↔ pat <:+: s)
  | pat, [] => by
    simp only [reSearchAux, matchHere_lit]
    constructor
    · intro h
      exact h.isInfix
    · intro h
      rw [List.infix_nil] at h
      subst h
      exact List.nil_prefix
  | pat, c :: cs => by
    simp only [reSearchAux, Bool.or_eq_true, matchHere_lit, reSearchAux_lit pat cs]
    constructor
    · rintro (h | h)
      · exact h.isInfix
      · exact List.infix_cons h
    · intro h
      rcases List.infix_cons_iff.mp h with h | h
      · exact Or.inl h
      · exact Or.inr h

theorem reSearch_lit {pat : Str} (h : ∀ c ∈ pat, ¬(c ∈ reSpecials)) (s : Str) :
    reSearch pat s = true ↔ pat <:+: s := by
  have hcomp : compileRe pat = pat.map RTok.lit := by
    unfold compileRe
    apply List.map_congr_left
    intro c hc
    have hne : ¬(c = '.') := fun he => (h c hc) (he ▸ (by decide : '.' ∈ reSpecials))
    simp [hne]
  rw [reSearch, hcomp]
  exact reSearchAux_lit pat s

theorem reSearch_eq_decide {pat : Str} (h : ∀ c ∈ pat, ¬(c ∈ reSpecials)) (s : Str) :
    reSearch pat s = decide (pat <:+: s) := by
  have hiff := reSearch_lit h s
  cases hres : reSearch pat s with
  | false =>
    rw [hres] at hiff
    have hn : ¬(pat <:+: s) := fun hcon => absurd (hiff.mpr hcon) (by decide)
    simp [hn]
  | true =>
    rw [hres] at hiff
    simp [hiff.mp rfl]

/-! # The claims -/

/-- Claim C1, counterexample to the original statement: a well-formed
object with the required keys whose title value contains a backtick fence
is *not* recovered by the normalizer, even with zero wrapping fences: the
global `replace` deletes the backticks inside the JSON string literal, so
the parse succeeds but yields a different object. -/
theorem normalizer_fence_destroys_title :
    Json.wf fenceObj = true ∧ hasRequiredKeys fenceObj = true ∧
    get_ai_analysis (.ok (Json.dumps fenceObj)) = some fenceObjStripped ∧
    get_ai_analysis (.ok (wrapFence (Json.dumps fenceObj))) = some fenceObjStripped ∧
    fenceObjStripped ≠ fenceObj := by decide

/-- Claim C1 (amended): for every valid JSON object with the required keys
whose serialisation contains no occurrence of the fence substring, the
normalization step of `get_ai_analysis` recovers exactly that object, both
bare (zero fences) and wrapped in one pair of fences. -/
theorem normalizer_roundtrip_nofence (kvs : JObj)
    (hwf : Json.wf (.obj kvs) = true) ( _hreq : hasRequiredKeys (.obj kvs) = true)
    (hf : ¬(S "```" <:+: Json.dumps (.obj kvs))) :
    get_ai_analysis (.ok (Json.dumps (.obj kvs))) = some (.obj kvs) ∧
    get_ai_analysis (.ok (wrapFence (Json.dumps (.obj kvs)))) = some (.obj kvs) := by
  obtain ⟨mid, hmid⟩ := obj_dumps_shape kvs
  have hnf : ¬(S "```json" <:+: Json.dumps (.obj kvs)) := not_fenceJson_of_not_fence hf
  constructor
  · show normalizeResponse (Json.dumps (.obj kvs)) = some (.obj kvs)
    unfold normalizeResponse
    rw [fenceJson_eq, fence_eq]
    rw [fenceJson_eq] at hnf
    rw [pyReplace_no_occ _ _ hnf]
    rw [fence_eq] at hf
    rw [pyReplace_no_occ _ _ hf]
    rw [hmid, @pyStrip_clean '\x7b' '\x7d' mid (by decide) (by decide), ← hmid]
    exact json_loads_dumps _ hwf
  · show normalizeResponse (wrapFence (Json.dumps (.obj kvs))) = some (.obj kvs)
    rw [hmid] at hf ⊢
    rw [@normalize_wrapFence '\x7b' '\x7d' mid (by decide) (by decide) hf]
    rw [← hmid]
    exact json_loads_dumps _ hwf

set_option maxRecDepth 8000 in
/-- Witness for the amended C1 at a concrete clean object. -/
theorem normalizer_roundtrip_nofence_witness :
    get_ai_analysis (.ok (Json.dumps cleanObj)) = some cleanObj ∧
    get_ai_analysis (.ok (wrapFence (Json.dumps cleanObj))) = some cleanObj :=
  normalizer_roundtrip_nofence
    (.cons (S "title") (.str (S "손해배상(기)"))
      (.cons (S "date") (.str (S "2024-01-10"))
        (.cons (S "categories") (.str (S "형사법>경제범죄(사기/횡령/배임)>사기")) .nil)))
    (by decide) (by decide) (by decide)

/-- Claim C2, counterexample to the original statement: a response whose
top level is a JSON array (not an object) is *accepted* by `json.loads`,
`get_ai_analysis` returns it, and — being truthy — it is stored in
`temp_res` by the analyze handler. -/
theorem analysis_accepts_nonobject :
    get_ai_analysis (.ok (S "[1]")) = some (.arr (.cons (.int 1) .nil)) ∧
    (analyzeClick (S "x") (.ok (S "[1]")) ⟨none, []⟩).1.temp_res =
      some (.arr (.cons (.int 1) .nil)) := by decide

/-- Claim C2 (amended): for every response text on which the
fence-stripped, trimmed parse *fails*, `get_ai_analysis` returns no result
and the analyze handler leaves the session state unchanged (in particular
`temp_res` is not set). -/
theorem analysis_parse_failure_no_store (caseContent t : Str) (st : AppState)
    (hc : caseContent ≠ []) (hp : normalizeResponse t = none) :
    get_ai_analysis (.ok t) = none ∧
    analyzeClick caseContent (.ok t) st = (st, true, false) := by
  have hg : get_ai_analysis (.ok t) = none := hp
  refine ⟨hg, ?_⟩
  unfold analyzeClick
  rw [if_neg hc, hg]

/-- Witness for the amended C2 at a truncated response text. -/
theorem analysis_parse_failure_no_store_witness :
    get_ai_analysis (.ok (S "[1,")) = none ∧
    analyzeClick (S "x") (.ok (S "[1,")) ⟨none, []⟩ = (⟨none, []⟩, true, false) :=
  analysis_parse_failure_no_store (S "x") (S "[1,") ⟨none, []⟩ (by decide) (by decide)

/-- Claim C3: the submit handler's row is exactly 11 fields in the fixed
order id, date, title, categories, facts, issues, laws, holdings, insight,
memo, url, with the identifier equal to the form's confirmed case number,
and a successful submit appends exactly this row to the sheet. -/
theorem submit_row_shape (f : SubmitForm) (st : AppState) :
    (assembleRow f).length = 11 ∧
    (assembleRow f)[0]? = some f.final_case_no ∧
    (assembleRow f)[1]? = some (pyStrDate f.final_date) ∧
    (assembleRow f)[2]? = some f.final_title ∧
    (assembleRow f)[3]? = some f.final_cats ∧
    (assembleRow f)[4]? = some f.final_facts ∧
    (assembleRow f)[5]? = some f.final_issues ∧
    (assembleRow f)[6]? = some f.final_laws ∧
    (assembleRow f)[7]? = some f.final_holdings ∧
    (assembleRow f)[8]? = some f.final_insight ∧
    (assembleRow f)[9]? = some f.user_memo ∧
    (assembleRow f)[10]? = some f.case_url ∧
    (submitClick true false f st).1.sheetRows = st.sheetRows ++ [assembleRow f] :=
  ⟨rfl, rfl, rfl, rfl, rfl, rfl, rfl, rfl, rfl, rfl, rfl, rfl, rfl⟩

/-- Claim C4: for a category chosen from the selectbox (other than
"전체"), the category filter retains exactly the rows whose categories
column contains the chosen category as a substring; in particular the
spec's three-row example keeps rows 2 and 3 and drops row 1. -/
theorem category_filter_substring (cat : Str) (rows : List CaseRow)
    (hmem : cat ∈ cat1Options) (hne : cat ≠ S "전체") :
    browseFilter cat [] rows =
      rows.filter (fun r => decide (cat <:+: r.categories)) ∧
    browseFilter (S "형사법") [] [civilRow, criminalRow, mixedRow] =
      [criminalRow, mixedRow] := by
  constructor
  · have hspec : ∀ c ∈ cat, ¬(c ∈ reSpecials) := by
      have hmem2 : cat = S "전체" ∨ cat = S "민사법" ∨ cat = S "형사법" ∨
          cat = S "행정법" ∨ cat = S "헌법" ∨ cat = S "지식재산권법" ∨ cat = S "기타" := by
        simpa [cat1Options, LEGAL_TAXONOMY] using hmem
      rcases hmem2 with h | h | h | h | h | h | h
      · exact absurd h hne
      all_goals subst h
      all_goals decide
    have hb : browseFilter cat [] rows =
        if cat = S "전체" then rows else catFilter cat rows := rfl
    rw [hb, if_neg hne]
    unfold catFilter
    apply List.filter_congr
    intro r _
    exact reSearch_eq_decide hspec r.categories
  · decide

/-- Witness for C4 at the selectbox entry "형사법" and the spec's rows. -/
theorem category_filter_substring_witness :
    browseFilter (S "형사법") [] [civilRow, criminalRow, mixedRow] =
      ([civilRow, criminalRow, mixedRow].filter
        (fun r => decide ((S "형사법") <:+: r.categories))) ∧
    browseFilter (S "형사법") [] [civilRow, criminalRow, mixedRow] =
      [criminalRow, mixedRow] :=
  category_filter_substring (S "형사법") [civilRow, criminalRow, mixedRow]
    (by decide) (by decide)

/-- Claim C5, counterexample to the original statement: the search uses
`re.search`, not substring matching — the query "." retains a row none of
whose searched columns contains a literal dot. -/
theorem search_filter_dot_regex :
    searchFilter (S ".") [dotlessRow] = [dotlessRow] ∧
    ¬(S "." <:+: dotlessRow.title) ∧ ¬(S "." <:+: dotlessRow.issues) ∧
    ¬(S "." <:+: dotlessRow.holdings) := by decide

/-- Claim C5 (amended): for every non-empty query containing no regular-
expression metacharacter, the search filter retains a row iff the query is
a substring of the title, the issues or the holdings column, OR'd. -/
theorem search_filter_substring (q : Str) (rows : List CaseRow)
    (hq : q ≠ []) (hspec : ∀ c ∈ q, ¬(c ∈ reSpecials)) :
    searchFilter q rows = rows.filter
      (fun r => decide (q <:+: r.title) || decide (q <:+: r.issues) ||
        decide (q <:+: r.holdings)) ∧
    browseFilter (S "전체") q rows = searchFilter q rows := by
  constructor
  · unfold searchFilter
    apply List.filter_congr
    intro r _
    rw [reSearch_eq_decide hspec r.title, reSearch_eq_decide hspec r.issues,
      reSearch_eq_decide hspec r.holdings]
  · have hb : browseFilter (S "전체") q rows =
        if q = [] then rows else searchFilter q rows := rfl
    rw [hb, if_neg hq]

/-- Witness for the amended C5 at the spec's query "사기". -/
theorem search_filter_substring_witness :
    searchFilter (S "사기") [civilRow, criminalRow, mixedRow] =
      ([civilRow, criminalRow, mixedRow].filter
        (fun r => decide ((S "사기") <:+: r.title) || decide ((S "사기") <:+: r.issues) ||
          decide ((S "사기") <:+: r.holdings))) ∧
    browseFilter (S "전체") (S "사기") [civilRow, criminalRow, mixedRow] =
      searchFilter (S "사기") [civilRow, criminalRow, mixedRow] :=
  search_filter_substring (S "사기") [civilRow, criminalRow, mixedRow]
    (by decide) (by decide)

/-- Claim C6, counterexample to the original statement: "2024-1-5" does
not match the strict `YYYY-MM-DD` shape, yet `strptime` accepts it (its
`%m`/`%d` patterns allow one-digit fields), so the form's date field is
initialised to 2024-01-05 and not to the current date. -/
theorem date_parse_lenient :
    specIsoFormat (S "2024-1-5") = false ∧
    dateInit (S "2024-1-5") ⟨2025, 6, 15⟩ = ⟨2024, 1, 5⟩ ∧
    (⟨2024, 1, 5⟩ : Date) ≠ ⟨2025, 6, 15⟩ := by decide

/-- Claim C6 (amended): whenever `strptime` rejects the extracted date
string, the field falls back to the current date without raising; and
every calendar-valid date rendered in strict `YYYY-MM-DD` (which that
rendering always is) is parsed back to exactly that date. -/
theorem date_field_init (s : Str) (now : Date) (y m d : Nat)
    (hy1 : 1 ≤ y) (hy2 : y ≤ 9999) (hm1 : 1 ≤ m) (hm2 : m ≤ 12)
    (hd1 : 1 ≤ d) (hd2 : d ≤ daysInMonth y m) :
    (strptimeYmd s = none → dateInit s now = now) ∧
    specIsoFormat (pyStrDate ⟨y, m, d⟩) = true ∧
    dateInit (pyStrDate ⟨y, m, d⟩) now = ⟨y, m, d⟩ := by
  refine ⟨?_, ?_, ?_⟩
  · intro h
    unfold dateInit
    rw [h]
  · have hshape : pyStrDate ⟨y, m, d⟩ =
        [digitChar (y / 1000 % 10), digitChar (y / 100 % 10),
         digitChar (y / 10 % 10), digitChar (y % 10), '-',
         digitChar (m / 10 % 10), digitChar (m % 10), '-',
         digitChar (d / 10 % 10), digitChar (d % 10)] := by
      simp [pyStrDate, pad4, pad2]
    rw [hshape]
    simp only [specIsoFormat]
    rw [isDigit_digitChar _ (Nat.mod_lt _ (by norm_num)),
      isDigit_digitChar _ (Nat.mod_lt _ (by norm_num)),
      isDigit_digitChar _ (Nat.mod_lt _ (by norm_num)),
      isDigit_digitChar _ (Nat.mod_lt _ (by norm_num)),
      isDigit_digitChar _ (Nat.mod_lt _ (by norm_num)),
      isDigit_digitChar _ (Nat.mod_lt _ (by norm_num)),
      isDigit_digitChar _ (Nat.mod_lt _ (by norm_num)),
      isDigit_digitChar _ (Nat.mod_lt _ (by norm_num))]
    simp
  · unfold dateInit
    rw [strptime_pyStrDate y m d hy1 hy2 hm1 hm2 hd1 hd2]

/-- Witness for the amended C6: a rejected string falls back, and
2024-01-10 round-trips. -/
theorem date_field_init_witness :
    (strptimeYmd (S "not a date") = none →
      dateInit (S "not a date") ⟨2025, 6, 15⟩ = ⟨2025, 6, 15⟩) ∧
    specIsoFormat (pyStrDate ⟨2024, 1, 10⟩) = true ∧
    dateInit (pyStrDate ⟨2024, 1, 10⟩) ⟨2025, 6, 15⟩ = ⟨2024, 1, 10⟩ :=
  date_field_init (S "not a date") ⟨2025, 6, 15⟩ 2024 1 10 (by decide) (by decide)
    (by decide) (by decide) (by decide) (by decide)

/-- Claim C7, counterexample to the original statement: a pending result
with title and categories but *no* date key still renders the review form
— the `res['date']` access sits inside the `try` whose bare `except`
catches the `KeyError`, so a missing date is not fatal and the field falls
back to the current date. -/
theorem review_missing_date_not_fatal :
    noDateRes.lookup (S "date") = none ∧
    (renderReview (.obj noDateRes) ⟨2025, 6, 15⟩).map ReviewForm.date =
      some ⟨2025, 6, 15⟩ := by decide

/-- Claim C7 (amended): of the required keys only `title` and `categories`
are accessed unguarded — the absence of either is fatal for the
interaction — while a missing `date` (like every other missing key) is
tolerated, the date field falling back to the current date. -/
theorem review_required_keys (kvs : JObj) (now : Date) :
    ((kvs.lookup (S "title")).isNone = true → renderReview (.obj kvs) now = none) ∧
    ((kvs.lookup (S "categories")).isNone = true → renderReview (.obj kvs) now = none) ∧
    (∀ t c, kvs.lookup (S "title") = some t → kvs.lookup (S "categories") = some c →
      (renderReview (.obj kvs) now).isSome = true ∧
      ∃ f, renderReview (.obj kvs) now = some f ∧ f.title = t ∧ f.categories = c ∧
        (kvs.lookup (S "date") = none → f.date = now) ∧
        (kvs.lookup (S "case_no") = none → f.case_no = emptyStr) ∧
        (kvs.lookup (S "facts") = none → f.facts = emptyStr) ∧
        (kvs.lookup (S "issues") = none → f.issues = emptyStr) ∧
        (kvs.lookup (S "laws") = none → f.laws = emptyStr) ∧
        (kvs.lookup (S "holdings") = none → f.holdings = emptyStr) ∧
        (kvs.lookup (S "insight") = none → f.insight = emptyStr)) := by
  refine ⟨?_, ?_, ?_⟩
  · intro h
    rw [Option.isNone_iff_eq_none] at h
    unfold renderReview
    dsimp only
    rw [h]
  · intro h
    rw [Option.isNone_iff_eq_none] at h
    unfold renderReview
    dsimp only
    cases htit : kvs.lookup (S "title") with
    | none => rfl
    | some t =>
      dsimp only
      rw [h]
  · intro t c htit hcat
    unfold renderReview
    dsimp only
    rw [htit]
    dsimp only
    rw [hcat]
    dsimp only
    refine ⟨rfl, _, rfl, rfl, rfl, ?_, ?_, ?_, ?_, ?_, ?_, ?_⟩
    · intro hd
      rw [hd]
    · intro h
      rw [h]
      rfl
    · intro h
      rw [h]
      rfl
    · intro h
      rw [h]
      rfl
    · intro h
      rw [h]
      rfl
    · intro h
      rw [h]
      rfl
    · intro h
      rw [h]
      rfl

/-- Witness for the amended C7 at a pending result whose only keys are the
two unguarded ones: the date falls back to now and every other field gets
the empty-string default. -/
theorem review_required_keys_witness :
    (renderReview (.obj noDateRes) ⟨2025, 6, 15⟩).isSome = true ∧
    ∃ f, renderReview (.obj noDateRes) ⟨2025, 6, 15⟩ = some f ∧
      f.title = .str (S "t") ∧ f.categories = .str (S "c") ∧
      (noDateRes.lookup (S "date") = none → f.date = ⟨2025, 6, 15⟩) ∧
      (noDateRes.lookup (S "case_no") = none → f.case_no = emptyStr) ∧
      (noDateRes.lookup (S "facts") = none → f.facts = emptyStr) ∧
      (noDateRes.lookup (S "issues") = none → f.issues = emptyStr) ∧
      (noDateRes.lookup (S "laws") = none → f.laws = emptyStr) ∧
      (noDateRes.lookup (S "holdings") = none → f.holdings = emptyStr) ∧
      (noDateRes.lookup (S "insight") = none → f.insight = emptyStr) :=
  (review_required_keys noDateRes ⟨2025, 6, 15⟩).2.2 (.str (S "t")) (.str (S "c"))
    (by decide) (by decide)

/-- Claim C8, counterexample to the original statement: submitting does
*not* clear the pending slot unconditionally — when the append raises, or
when the sheet is unavailable, `temp_res` survives the submit. -/
theorem submit_failure_keeps_slot :
    (submitClick true true sampleForm ⟨some cleanObj, []⟩).1.temp_res = some cleanObj ∧
    (submitClick false false sampleForm ⟨some cleanObj, []⟩).1.temp_res = some cleanObj := by
  decide

/-- Claim C8 (amended): the pending result is a single `Option`-typed
slot; cancelling clears it unconditionally, while submitting clears it
exactly on a successful append and otherwise leaves the state untouched. -/
theorem slot_cleared_on_review_end (st : AppState) (f : SubmitForm) (b : Bool) :
    cancelClick st = ⟨none, st.sheetRows⟩ ∧
    (submitClick true false f st).1.temp_res = none ∧
    (submitClick true true f st).1 = st ∧
    (submitClick false b f st).1 = st :=
  ⟨rfl, rfl, rfl, rfl⟩

/-- Claim C9: clicking analyze with empty case text runs no analysis,
leaves the whole session state unchanged (any pending result survives) and
only shows the warning. -/
theorem analyze_empty_input_frame (gen : GenOutcome) (st : AppState) :
    analyzeClick [] gen st = (st, false, true) := rfl

/-- Claim C10: when saving fails — sheet unavailable or append raising —
the submit handler returns the state unchanged (the pending result stays
in place) and reports no success. -/
theorem submit_failure_preserves_pending (f : SubmitForm) (st : AppState) (b : Bool) :
    submitClick false b f st = (st, false) ∧
    submitClick true true f st = (st, false) :=
  ⟨rfl, rfl⟩
